import Mathlib

/-!
# Verification of `tagwork.py`

A shallow embedding of the workout-tagging tool `src/tagwork.py`.

Python strings are modelled as `List Char` (named `Str`), filesystem paths as
lists of path segments (`List Str`), and the relevant behaviour of
`xml.etree.ElementTree` (parsing, `find`, `SubElement`, serialisation with
`encoding="unicode"`) is modelled by an executable XML tree type `Elem`
together with a recursive-descent document reader `parseDoc` and a serialiser
`tostring`.  The modelled XML dialect covers elements, attributes, character
data with the five standard entities and decimal character references, and an
optional leading XML declaration; comments, processing instructions, DOCTYPE
and CDATA sections are outside the modelled well-formed fragment.

The traversal of `main` (`os.walk`, identifier assignment, per-file patching
and output writing) is embedded as a structurally recursive run over a
directory tree value, with the `updated_xml` local variable modelled
explicitly (it is only bound inside the recognised-extension branch, so using
it while unbound is a `NameError`, modelled as a crash of the whole run).
-/

set_option maxHeartbeats 1000000

namespace Tagwork

/-- Python strings, modelled as lists of characters. -/
abbrev Str := List Char

/-- Shorthand turning a Lean string literal into the `Str` model. -/
def str (s : String) : Str := s.data

/-- Filesystem paths, modelled as lists of path segments (no separators). -/
abbrev Path := List Str

/-- Association-list lookup keyed by decidable equality; models Python
`dict` lookup when new bindings are consed to the front. -/
def alookup {α β : Type} [DecidableEq α] : List (α × β) → α → Option β
  | [], _ => none
  | (k, v) :: rest, key => if key = k then some v else alookup rest key

/-- `dict.get(key, default)`. -/
def aget {α β : Type} [DecidableEq α] (m : List (α × β)) (key : α) (dflt : β) : β :=
  (alookup m key).getD dflt

/-- The decimal digit character for `d` (`0 ≤ d ≤ 9`). -/
def digitChar (d : Nat) : Char := Char.ofNat (48 + d)

/-- Decimal digits of `n`, most significant first, by fuelled recursion
(empty for `n = 0`; the fuel is always ample in use). -/
def natStrAux : Nat → Nat → Str
  | 0, _ => []
  | fuel + 1, n => if n = 0 then [] else natStrAux fuel (n / 10) ++ [digitChar (n % 10)]

/-- Decimal representation of a natural number, as Python `str(n)` produces. -/
def natStr (n : Nat) : Str := if n = 0 then ['0'] else natStrAux (n + 1) n

/-- Numeric value of a digit character. -/
def digitVal (c : Char) : Nat := c.toNat - 48

/-- Left fold turning a digit string back into a number (inverse of `natStr`). -/
def strToNatAux : Str → Nat → Nat
  | [], acc => acc
  | c :: r, acc => strToNatAux r (acc * 10 + digitVal c)

/-- Read a digit string as a natural number. -/
def strToNat (s : Str) : Nat := strToNatAux s 0

/-- The hierarchical identifier of a child: `parent_id + "-" + k` when the
parent identifier is nonempty, else `str(k)` (line 96 of `tagwork.py`). -/
def childId (pid : Str) (k : Nat) : Str :=
  if pid = [] then natStr k else pid ++ '-' :: natStr k

/-- The identifier determined by a 1-based sibling-position path:
positions joined by dashes, the empty path giving the empty identifier. -/
def encodePos : List Nat → Str
  | [] => []
  | [i] => natStr i
  | i :: j :: rest => natStr i ++ '-' :: encodePos (j :: rest)

/-- Split a string at every dash (used only in proofs about identifiers). -/
def splitDash : Str → List Str
  | [] => [[]]
  | c :: r =>
    if c = '-' then [] :: splitDash r
    else
      match splitDash r with
      | [] => [[c]]
      | h :: t => (c :: h) :: t

/-- Split `s` at the last occurrence of `c`: returns the part before it and
the part from it on (inclusive), or `none` when `c` does not occur. -/
def breakLast (c : Char) : Str → Option (Str × Str)
  | [] => none
  | x :: xs =>
    match breakLast c xs with
    | some (b, e) => some (x :: b, e)
    | none => if x = c then some ([], x :: xs) else none

/-- `os.path.splitext` on a bare filename: split at the last dot, except that
a candidate base consisting only of dots (leading-dot filenames such as
`.bashrc`) yields no extension. -/
def splitext (s : Str) : Str × Str :=
  match breakLast '.' s with
  | none => (s, [])
  | some (base, ext) => if base.all (fun c => c = '.') then (s, []) else (base, ext)

/-- `str.lower`, ASCII case folding (extensions compared here are ASCII). -/
def lowerStr (s : Str) : Str := s.map Char.toLower

/-- The check of line 106: extension (lowercased) is `.zwo` or `.xml`. -/
def recognizedExt (ext : Str) : Bool :=
  lowerStr ext = str ".zwo" || lowerStr ext = str ".xml"

/-- `l` begins with `p`. -/
def leadsWith (p s : Str) : Bool :=
  match p, s with
  | [], _ => true
  | _ :: _, [] => false
  | a :: p', b :: s' => a = b && leadsWith p' s'

/-- `s` ends with `p`. -/
def endsWith (p s : Str) : Bool := leadsWith p.reverse s.reverse

end Tagwork

namespace Tagwork

/-! ## The XML document model (the fragment of `xml.etree.ElementTree` used) -/

/-- An XML element: tag, attributes in document order, text immediately after
the start tag, child elements, and tail text following the end tag —
the data carried by an `ElementTree.Element`. -/
inductive Elem : Type where
  | mk (tag : Str) (attrs : List (Str × Str)) (text : Option Str)
       (children : List Elem) (tail : Option Str)

def Elem.tag : Elem → Str
  | .mk t _ _ _ _ => t

def Elem.attrs : Elem → List (Str × Str)
  | .mk _ a _ _ _ => a

def Elem.text : Elem → Option Str
  | .mk _ _ tx _ _ => tx

def Elem.children : Elem → List Elem
  | .mk _ _ _ c _ => c

def Elem.tail : Elem → Option Str
  | .mk _ _ _ _ tl => tl

/-- Characters that may start an XML name (ASCII fragment). -/
def nameStartChar (c : Char) : Bool := c.isAlpha || c = '_' || c = ':'

/-- Characters that may continue an XML name (ASCII fragment). -/
def nameChar (c : Char) : Bool := nameStartChar c || c.isDigit || c = '-' || c = '.'

/-- XML whitespace. -/
def xmlWS (c : Char) : Bool := c = ' ' || c = '\t' || c = '\n' || c = '\r'

/-- Escape character data as the serialiser does (`&`, `<`, `>`). -/
def escText : Str → Str
  | [] => []
  | c :: r =>
    (if c = '&' then str "&amp;"
     else if c = '<' then str "&lt;"
     else if c = '>' then str "&gt;"
     else [c]) ++ escText r

/-- Escape an attribute value as the serialiser does
(`&`, `<`, `>`, `"` and literal tab / newline / carriage return). -/
def escAttr : Str → Str
  | [] => []
  | c :: r =>
    (if c = '&' then str "&amp;"
     else if c = '<' then str "&lt;"
     else if c = '>' then str "&gt;"
     else if c = '"' then str "&quot;"
     else if c = '\r' then str "&#13;"
     else if c = '\n' then str "&#10;"
     else if c = '\t' then str "&#09;"
     else [c]) ++ escAttr r

/-- Serialise text that is absent as nothing (`if text: write(...)`). -/
def serOptText (t : Option Str) : Str :=
  match t with
  | none => []
  | some s => escText s

/-- Serialise the attribute list: a single space before each `name="value"`. -/
def serAttrs : List (Str × Str) → Str
  | [] => []
  | (k, v) :: rest => ' ' :: (k ++ '=' :: '"' :: escAttr v ++ ['"']) ++ serAttrs rest

mutual
/-- Serialise one element, `ElementTree`'s writer with
`short_empty_elements=True`: `<tag />` when there is no text and no child. -/
def serElem : Elem → Str
  | .mk tag attrs text children _ =>
    '<' :: tag ++ serAttrs attrs ++
    (match text, children with
     | none, [] => str " />"
     | text, children =>
       '>' :: serOptText text ++ serChildren children ++ ('<' :: '/' :: tag ++ ['>']))

/-- Serialise a child list; each child is followed by its tail text. -/
def serChildren : List Elem → Str
  | [] => []
  | c :: cs => serElem c ++ serOptText c.tail ++ serChildren cs
end

/-- `ET.tostring(root, encoding="unicode")`: the root element followed by its
tail, with no XML declaration and no byte-order mark. -/
def tostring (e : Elem) : Str := serElem e ++ serOptText e.tail

end Tagwork

namespace Tagwork

/-! ## Reading XML documents (the fragment `ET.fromstring` accepts here) -/

/-- Reject one character (used as a `takeWhile` predicate). -/
def isNot (x : Char) (c : Char) : Bool := if c = x then false else true

/-- Resolve one entity or decimal character reference after a `&`. -/
def parseRef : Str → Option (Char × Str)
  | 'a' :: 'm' :: 'p' :: ';' :: r => some ('&', r)
  | 'l' :: 't' :: ';' :: r => some ('<', r)
  | 'g' :: 't' :: ';' :: r => some ('>', r)
  | 'q' :: 'u' :: 'o' :: 't' :: ';' :: r => some ('"', r)
  | 'a' :: 'p' :: 'o' :: 's' :: ';' :: r => some (Char.ofNat 39, r)
  | '#' :: rest =>
    match rest.takeWhile Char.isDigit, rest.dropWhile Char.isDigit with
    | [], _ => none
    | _ :: _, ';' :: r3 => some (Char.ofNat (strToNat (rest.takeWhile Char.isDigit)), r3)
    | _ :: _, _ => none
  | _ => none

/-- Resolve all references in a chunk of character data; a raw `<` or a bad
reference is a parse error. -/
def unescapeF : Nat → Str → Option Str
  | _, [] => some []
  | 0, _ :: _ => none
  | fuel + 1, c :: r =>
    if c = '&' then
      match parseRef r with
      | none => none
      | some (ch, r2) => (unescapeF fuel r2).map (fun t => ch :: t)
    else if c = '<' then none
    else (unescapeF fuel r).map (fun t => c :: t)

/-- Resolve all references in a chunk of character data. -/
def unescape (s : Str) : Option Str := unescapeF (s.length + 1) s

/-- Parsed text: absent when empty (the parser never yields empty text). -/
def strOpt (s : Str) : Option Str :=
  match s with
  | [] => none
  | _ :: _ => some s

/-- Read an XML name (longest run of name characters, first one a starter). -/
def parseName (s : Str) : Option (Str × Str) :=
  match s with
  | [] => none
  | c :: _ =>
    if nameStartChar c then some (s.takeWhile nameChar, s.dropWhile nameChar) else none

/-- Read the attribute list of a start tag, consuming surrounding whitespace;
stops before `>` or `/>`. -/
def parseAttrs : Nat → Str → Option (List (Str × Str) × Str)
  | 0, _ => none
  | fuel + 1, s =>
    match s.dropWhile xmlWS with
    | [] => some ([], [])
    | c :: cr =>
      if nameStartChar c then
        match parseName (c :: cr) with
        | none => none
        | some (k, r1) =>
          match r1 with
          | '=' :: '"' :: r2 =>
            match r2.dropWhile (isNot '"'), unescape (r2.takeWhile (isNot '"')) with
            | '"' :: r4, some v =>
              match parseAttrs fuel r4 with
              | none => none
              | some (attrs, r5) => some ((k, v) :: attrs, r5)
            | _, _ => none
          | _ => none
      else some ([], c :: cr)

/-- Attach a tail to an element (`ElementTree` stores it on the element). -/
def setTail : Elem → Option Str → Elem
  | .mk t a tx c _, tl => .mk t a tx c tl

mutual
/-- Read one element: start tag, attributes, then either `/>` or content
followed by the matching end tag.  The returned element has no tail. -/
def parseElem : Nat → Str → Option (Elem × Str)
  | 0, _ => none
  | fuel + 1, s =>
    match s with
    | '<' :: r =>
      match parseName r with
      | none => none
      | some (tag, r1) =>
        match parseAttrs (r1.length + 1) r1 with
        | none => none
        | some (attrs, r2) =>
          match r2 with
          | '/' :: '>' :: r3 => some (.mk tag attrs none [] none, r3)
          | '>' :: r3 =>
            match parseContent fuel r3 with
            | none => none
            | some (text, children, r5) =>
              match parseName r5 with
              | none => none
              | some (ctag, r6) =>
                if ctag = tag then
                  match r6.dropWhile xmlWS with
                  | '>' :: r7 => some (.mk tag attrs text children none, r7)
                  | _ => none
                else none
          | _ => none
    | _ => none

/-- Read mixed content up to and including the next `</` marker: leading
text, then child elements each carrying the text that follows it as its
tail; the returned remainder starts right after the `</`. -/
def parseContent : Nat → Str → Option (Option Str × List Elem × Str)
  | 0, _ => none
  | fuel + 1, s =>
    match unescape (s.takeWhile (isNot '<')) with
    | none => none
    | some txt =>
      match s.dropWhile (isNot '<') with
      | '<' :: rr =>
        if rr.head? = some '/' then some (strOpt txt, [], rr.tail)
        else
          match parseElem fuel ('<' :: rr) with
          | none => none
          | some (child, r1) =>
            match parseContent fuel r1 with
            | none => none
            | some (tailTxt, more, r2) => some (strOpt txt, setTail child tailTxt :: more, r2)
      | _ => none
end

/-- Skip past `?>`. -/
def dropThrough : Nat → Str → Option Str
  | 0, _ => none
  | _ + 1, [] => none
  | fuel + 1, c :: r =>
    if c = '?' then
      match r with
      | '>' :: r2 => some r2
      | _ => dropThrough fuel r
    else dropThrough fuel r

/-- Skip an optional leading XML declaration. -/
def skipDecl (s : Str) : Option Str :=
  if leadsWith (str "<?xml") s then dropThrough (s.length + 1) (s.drop 5) else some s

/-- `ET.fromstring`: optional XML declaration, optional whitespace, one root
element, optional trailing whitespace.  `none` is a parse error. -/
def parseDoc (s : Str) : Option Elem :=
  match skipDecl s with
  | none => none
  | some s1 =>
    match parseElem ((s1.dropWhile xmlWS).length + 1) (s1.dropWhile xmlWS) with
    | none => none
    | some (e, r) =>
      match r.dropWhile xmlWS with
      | [] => some e
      | _ :: _ => none

/-! ## Well-formed element values (what reading can produce) -/

/-- A usable XML name: nonempty, name characters only, valid first character. -/
def goodName (s : Str) : Bool :=
  match s with
  | [] => false
  | c :: _ => nameStartChar c && s.all nameChar

/-- Text fields are absent or nonempty (reading never yields empty text). -/
def optNE : Option Str → Bool
  | some [] => false
  | _ => true

mutual
/-- Element well-formedness: good tag and attribute names, no empty text or
tail fields, well-formed children. -/
def wfElem : Elem → Bool
  | .mk tag attrs text children tail =>
    goodName tag && attrs.all (fun kv => goodName kv.1) && optNE text && optNE tail &&
      wfList children

/-- Well-formedness of a list of elements. -/
def wfList : List Elem → Bool
  | [] => true
  | c :: cs => wfElem c && wfList cs
end

mutual
/-- Fuel sufficient for `parseElem` on this element's serialisation. -/
def needElem : Elem → Nat
  | .mk _ _ _ children _ => 1 + needList children

/-- Fuel sufficient for `parseContent` on this child list's serialisation. -/
def needList : List Elem → Nat
  | [] => 1
  | c :: cs => 1 + max (needElem c) (needList cs)
end

/-! ## The patcher (`update_workout_xml`, lines 39-59) -/

/-- A fresh empty element, as `ET.SubElement` creates. -/
def newElem (tag : Str) : Elem := .mk tag [] none [] none

/-- Line 50: `name_element.text = (name_element.text or "") + f" [{group_id}]"`. -/
def setNameText (group_id : Str) (e : Elem) : Elem :=
  .mk e.tag e.attrs (some ((e.text.getD []) ++ str " [" ++ group_id ++ str "]"))
    e.children e.tail

/-- Lines 56-57: `desc_element.text = f"{file_dir}:  {desc_element.text or ''}"`. -/
def setDescText (file_dir : Str) (e : Elem) : Elem :=
  .mk e.tag e.attrs (some (file_dir ++ str ":  " ++ (e.text.getD []))) e.children e.tail

/-- Apply `f` to the first direct child with the given tag. -/
def updFirst (tag : Str) (f : Elem → Elem) : List Elem → Option (List Elem)
  | [] => none
  | c :: cs =>
    if c.tag = tag then some (f c :: cs) else (updFirst tag f cs).map (fun l => c :: l)

/-- The find-or-append-then-update step used for both fields:
`root.find(tag)` followed by `ET.SubElement(root, tag)` when absent. -/
def patchField (tag : Str) (f : Elem → Elem) (root : Elem) : Elem :=
  match updFirst tag f root.children with
  | some cs => .mk root.tag root.attrs root.text cs root.tail
  | none =>
    .mk root.tag root.attrs root.text (root.children ++ [f (newElem tag)]) root.tail

/-- The tree transformation of `update_workout_xml`: update `<name>`, then
`<description>`. -/
def patchTree (root : Elem) (group_id file_dir : Str) : Elem :=
  patchField (str "description") (setDescText file_dir)
    (patchField (str "name") (setNameText group_id) root)

/-- `update_workout_xml` (lines 39-59): parse, patch, re-serialise; a parse
error is reported to the caller (`ValueError` in the source). -/
def update_workout_xml (xml_content group_id file_dir : Str) : Except Str Str :=
  match parseDoc xml_content with
  | none => .error (str "XML parse error")
  | some xml_root => .ok (tostring (patchTree xml_root group_id file_dir))

/-- `root.find(tag)`: first direct child with the given tag. -/
def findChild (tag : Str) : List Elem → Option Elem
  | [] => none
  | c :: cs => if c.tag = tag then some c else findChild tag cs

/-- The text of an optional element, empty when absent (`text or ""`). -/
def textOf (oe : Option Elem) : Str := (oe.bind Elem.text).getD []

end Tagwork

namespace Tagwork

/-! ## The filesystem model and the traversal of `main` (lines 62-150)

A directory tree value fixes what `os.walk` enumerates: subdirectories and
files in list order (the enumeration order of the filesystem).  Per-file I/O
failures are modelled by the two fault flags of `FileEntry`; `readFails`
makes the `open`-for-read raise `IOError`, `writeFails` makes the
`open`-for-write raise `IOError`. -/

/-- A regular file: name (with extension), text content, fault flags. -/
structure FileEntry where
  fname : Str
  content : Str
  readFails : Bool
  writeFails : Bool

/-- A directory with its subdirectories and files in enumeration order. -/
inductive FSTree : Type where
  | dir (dname : Str) (subdirs : List FSTree) (files : List FileEntry)

def FSTree.dname : FSTree → Str
  | .dir n _ _ => n

def FSTree.subdirs : FSTree → List FSTree
  | .dir _ s _ => s

def FSTree.files : FSTree → List FileEntry
  | .dir _ _ f => f

/-- The mutable state of one run of `main`: the two path-keyed maps (newest
binding first), the written-file count, and logs of the outputs produced.
`updatedXml` is the function-local Python variable `updated_xml`, which is
unbound (`none`) until the first successful patch. -/
structure St where
  idMap : List (Path × Str)
  ctrMap : List (Path × Nat)
  count : Nat
  written : List (Path × Str)
  createdDirs : List Path
  errLog : List Path
  updatedXml : Option Str

/-- Constants of one run: the selected input root and the output root. -/
structure Cfg where
  rootPath : Path
  outRoot : Path

/-- Lines 85-101: identifier assignment when `os.walk` yields a directory.
The root keeps its pre-seeded empty identifier; any other directory gets
`childId` of its parent's identifier and the parent's counter, the parent's
counter is bumped, and the directory's own counter is set to 1. -/
def assignStep (cfg : Cfg) (curPath : Path) (st : St) : St :=
  let parent := curPath.dropLast
  let pid := aget st.idMap parent []
  let st1 :=
    if curPath = cfg.rootPath then st
    else
      let k := aget st.ctrMap parent 1
      { st with idMap := (curPath, childId pid k) :: st.idMap,
                ctrMap := (parent, k + 1) :: st.ctrMap }
  { st1 with ctrMap := (curPath, 1) :: st1.ctrMap }

/-- Lines 131-138: tag every directory segment of the relative path with the
identifier of the corresponding input subdirectory (`dict.get` default `""`). -/
def tagLoop (idMap : List (Path × Str)) : Path → List Str → List Str
  | _, [] => []
  | acc, part :: rest =>
    (part ++ str "_[" ++ aget idMap (acc ++ [part]) [] ++ str "]") ::
      tagLoop idMap (acc ++ [part]) rest

/-- Lines 124-139: the output directory for a file whose directory is
`relDir` below the input root; files directly in the root go to `outRoot`. -/
def computeOutputDir (cfg : Cfg) (idMap : List (Path × Str)) (relDir : List Str) : Path :=
  match relDir with
  | [] => cfg.outRoot
  | _ :: _ => cfg.outRoot ++ tagLoop idMap cfg.rootPath relDir

/-- Lines 116-118: `'File:' + parent_base_dir_name + '/' + base_dir_name +
'/' + file_stem`. -/
def originLabel (curPath : Path) (stem : Str) : Str :=
  let base := (curPath.getLast?).getD []
  let pbase := ((curPath.dropLast).getLast?).getD []
  str "File:" ++ pbase ++ '/' :: (base ++ '/' :: stem)

/-- Lines 124-148, the unconditional part of the file loop: compute the
output directory, `make_path` it, open the output file and write
`updated_xml`.  The `open` may raise a caught `IOError` (`writeFails`);
otherwise evaluating the name `updated_xml` while it is unbound raises an
uncaught `NameError`, modelled as `.error` aborting the whole run. -/
def writeStage (cfg : Cfg) (relDir : List Str) (fname : Str) (writeFails : Bool)
    (st : St) : Except St St :=
  let outDir := computeOutputDir cfg st.idMap relDir
  let st2 := { st with createdDirs := outDir :: st.createdDirs }
  if writeFails then .ok { st2 with errLog := (outDir ++ [fname]) :: st2.errLog }
  else
    match st2.updatedXml with
    | none => .error st2
    | some content =>
      .ok { st2 with written := (outDir ++ [fname], content) :: st2.written,
                     count := st2.count + 1 }

/-- Lines 103-148: one iteration of the file loop.  Only files with a
recognised extension are read and patched; a read or parse failure is logged
and `continue`s; but the write stage runs for every file. -/
def processFile (cfg : Cfg) (curPath : Path) (st : St) (f : FileEntry) : Except St St :=
  let se := splitext f.fname
  let relDir := curPath.drop cfg.rootPath.length
  if recognizedExt se.2 then
    if f.readFails then .ok { st with errLog := (curPath ++ [f.fname]) :: st.errLog }
    else
      match update_workout_xml f.content (aget st.idMap curPath []) (originLabel curPath se.1) with
      | .error _ => .ok { st with errLog := (curPath ++ [f.fname]) :: st.errLog }
      | .ok upd =>
        writeStage cfg relDir f.fname f.writeFails { st with updatedXml := some upd }
  else writeStage cfg relDir f.fname f.writeFails st

/-- The file loop over one directory's files. -/
def processFiles (cfg : Cfg) (curPath : Path) (st : St) : List FileEntry → Except St St
  | [] => .ok st
  | f :: fs =>
    match processFile cfg curPath st f with
    | .error e => .error e
    | .ok st2 => processFiles cfg curPath st2 fs

mutual
/-- One `os.walk` step (top-down): assign the directory's identifier, run the
file loop, then recurse into the subdirectories in order. -/
def runTree (cfg : Cfg) (curPath : Path) (t : FSTree) (st : St) : Except St St :=
  match t with
  | .dir _ subdirs files =>
    match processFiles cfg curPath (assignStep cfg curPath st) files with
    | .error e => .error e
    | .ok st2 => runForest cfg curPath subdirs st2

/-- Walk a list of sibling directories in order. -/
def runForest (cfg : Cfg) (curPath : Path) (ts : List FSTree) (st : St) : Except St St :=
  match ts with
  | [] => .ok st
  | t :: rest =>
    match runTree cfg (curPath ++ [t.dname]) t st with
    | .error e => .error e
    | .ok st2 => runForest cfg curPath rest st2
end

/-- Outcome of one invocation: Python's exit status, the final summary line
(`groups, files`) when it is printed, and the run state if a run started. -/
structure MainResult where
  exitCode : Nat
  summary : Option (Nat × Nat)
  finalSt : Option St

/-- Lines 76-83: output root named after the input root, created up front;
identifier map pre-seeded with the root; counters empty. -/
def mkCfg (parent : Path) (t : FSTree) : Cfg :=
  { rootPath := parent ++ [t.dname], outRoot := parent ++ [t.dname ++ str "_tagged"] }

/-- The state before the walk starts. -/
def initSt (cfg : Cfg) : St :=
  { idMap := [(cfg.rootPath, [])], ctrMap := [], count := 0, written := [],
    createdDirs := [cfg.outRoot], errLog := [], updatedXml := none }

/-- One full walk from the selected root. -/
def runAll (parent : Path) (t : FSTree) : Except St St :=
  runTree (mkCfg parent t) (mkCfg parent t).rootPath t (initSt (mkCfg parent t))

/-- `main`: cancelled selection exits with status 1 before any filesystem
output; otherwise the walk runs, the summary is printed on normal completion
(exit 0), and an uncaught exception ends the process with status 1 and no
summary. -/
def mainModel (sel : Option (Path × FSTree)) : MainResult :=
  match sel with
  | none => { exitCode := 1, summary := none, finalSt := none }
  | some (parent, t) =>
    match runAll parent t with
    | .ok st =>
      { exitCode := 0, summary := some (st.idMap.length - 1, st.count), finalSt := some st }
    | .error stc => { exitCode := 1, summary := none, finalSt := some stc }

/-! ## Specification-side definitions (used to state the claims) -/

mutual
/-- The identifier table a run is expected to build for the subtree rooted at
absolute path `q` with identifier `qid`, in discovery (preorder) order. -/
def specTree (q : Path) (qid : Str) (t : FSTree) : List (Path × Str) :=
  match t with
  | .dir _ subdirs _ => (q, qid) :: specForest q qid 1 subdirs

/-- Expected identifier entries for the siblings of a parent with identifier
`pid`, the next sibling receiving sequence number `i`. -/
def specForest (p : Path) (pid : Str) (i : Nat) : List FSTree → List (Path × Str)
  | [] => []
  | t :: ts => specTree (p ++ [t.dname]) (childId pid i) t ++ specForest p pid (i + 1) ts
end

mutual
/-- The 1-based sibling-position paths of all directories of a subtree. -/
def posTree (pos : List Nat) (t : FSTree) : List (List Nat) :=
  match t with
  | .dir _ subdirs _ => pos :: posForest pos 1 subdirs

/-- Position paths for a sibling list, the next sibling at position `i`. -/
def posForest (pos : List Nat) (i : Nat) : List FSTree → List (List Nat)
  | [] => []
  | t :: ts => posTree (pos ++ [i]) t ++ posForest pos (i + 1) ts
end

/-- No string occurs twice. -/
def nodupStrs : List Str → Bool
  | [] => true
  | s :: rest => rest.all (fun x => if x = s then false else true) && nodupStrs rest

mutual
/-- Sibling directory names are distinct throughout (true of any real
filesystem tree, where names within one directory are unique). -/
def uniqTree : FSTree → Bool
  | .dir _ subdirs _ => nodupStrs (subdirs.map FSTree.dname) && uniqForest subdirs

/-- `uniqTree` for every tree in the list. -/
def uniqForest : List FSTree → Bool
  | [] => true
  | t :: ts => uniqTree t && uniqForest ts
end

/-- First subdirectory with the given name. -/
def findDir (n : Str) : List FSTree → Option FSTree
  | [] => none
  | t :: ts => if t.dname = n then some t else findDir n ts

/-- Follow a relative segment path down the tree. -/
def subtreeAt : FSTree → List Str → Option FSTree
  | t, [] => some t
  | t, n :: rest => (findDir n t.subdirs).bind (fun c => subtreeAt c rest)

/-- The claim's wording of the tagged output segments: every directory
segment becomes `segment + "_[" + identifier + "]"`. -/
def specTaggedSegs (relDir : List Str) (ids : List Str) : List Str :=
  List.zipWith (fun seg tg => seg ++ str "_[" ++ tg ++ str "]") relDir ids

/-- The claim's wording of a recognised file's output path: the tagged
directory segments joined under the output root, the filename unchanged. -/
def specOutputPath (outRoot : Path) (relDir : List Str) (ids : List Str) (fname : Str) : Path :=
  outRoot ++ specTaggedSegs relDir ids ++ [fname]

/-- Identifier alphabet: decimal digits and dashes. -/
def idChar (c : Char) : Bool := c.isDigit || c = '-'

/-- An identifier value: a (possibly empty) digit-and-dash string. -/
def idStr (s : Str) : Bool := s.all idChar

end Tagwork

namespace Tagwork

/-- The keys of a path-keyed map. -/
def keysOf {β : Type} (m : List (Path × β)) : List Path := m.map Prod.fst

/-- The values of a path-keyed map. -/
def valsOf {β : Type} (m : List (Path × β)) : List β := m.map Prod.snd

/-- The identifier map a completed run is expected to leave behind: all
subtree entries in reverse discovery order on top of the pre-seeded root. -/
def specIdMap (cfg : Cfg) (t : FSTree) : List (Path × Str) :=
  (specForest cfg.rootPath [] 1 t.subdirs).reverse ++ [(cfg.rootPath, [])]

/-- An element that is neither a `<name>` nor a `<description>`. -/
def isOther (c : Elem) : Bool :=
  if c.tag = str "name" then false else if c.tag = str "description" then false else true

/-- The non-`name`, non-`description` children, in order. -/
def othersOf (cs : List Elem) : List Elem := cs.filter isOther

end Tagwork

namespace Tagwork

/-! ## Invariants used in the traversal proofs -/

/-- Every strict extension of the root up to `rel` is assigned a nonempty
digit-and-dash identifier (the lookups `tagLoop` performs all succeed). -/
def TagsOk (cfg : Cfg) (idMap : List (Path × Str)) (rel : List Str) : Prop :=
  ∀ i, 1 ≤ i → i ≤ rel.length →
    ∃ v, alookup idMap (cfg.rootPath ++ rel.take i) = some v ∧ v ≠ [] ∧ idStr v = true

/-- A tagged output segment: some name suffixed with a nonempty bracketed
digit-and-dash tag. -/
def GoodSeg (s : Str) : Prop :=
  ∃ nm tg, s = nm ++ str "_[" ++ tg ++ str "]" ∧ tg ≠ [] ∧ idStr tg = true

/-- Every directory handed to `make_path` is the output root followed by
tagged segments only. -/
def GoodCreated (cfg : Cfg) (st : St) : Prop :=
  ∀ q ∈ st.createdDirs, ∃ parts, q = cfg.outRoot ++ parts ∧ ∀ s ∈ parts, GoodSeg s

/-- Identifier-map values are digit-and-dash strings, empty only at the root. -/
def IdOk (cfg : Cfg) (st : St) : Prop :=
  ∀ kv ∈ st.idMap, idStr kv.2 = true ∧ (kv.1 ≠ cfg.rootPath → kv.2 ≠ [])

end Tagwork

namespace Tagwork

/-! ## Concrete inputs used to exercise the model on closed runs -/

/-- A root holding one recognised workout file and one `.txt` file. -/
def T1 : FSTree := .dir (str "w1") []
  [⟨str "a.zwo", str "<workout><name>Ride</name></workout>", false, false⟩,
   ⟨str "b.txt", str "hello", false, false⟩]

/-- A root holding a single unrecognised file. -/
def T2 : FSTree := .dir (str "w2") [] [⟨str "z.txt", str "zz", false, false⟩]

/-- A root with an unrecognised file and one subdirectory. -/
def T5 : FSTree := .dir (str "w5") [.dir (str "G1") [] []]
  [⟨str "x.txt", str "x", false, false⟩]

/-- A root with one empty subdirectory and no files. -/
def T5w : FSTree := .dir (str "w5w") [.dir (str "g") [] []] []

/-- The state a run from `[p5w]` over `T5w` ends in. -/
def ST5w : St :=
  { idMap := [([str "p5w", str "w5w", str "g"], str "1"), ([str "p5w", str "w5w"], [])],
    ctrMap := [([str "p5w", str "w5w", str "g"], 1), ([str "p5w", str "w5w"], 2),
      ([str "p5w", str "w5w"], 1)],
    count := 0, written := [], createdDirs := [[str "p5w", str "w5w_tagged"]],
    errLog := [], updatedXml := none }

/-- A root holding exactly one workout file `a.zwo` with `<name>Ride</name>`. -/
def T8 : FSTree := .dir (str "w8") []
  [⟨str "a.zwo", str "<workout><name>Ride</name></workout>", false, false⟩]

/-- A root holding a single unrecognised file. -/
def T9 : FSTree := .dir (str "w9") [] [⟨str "n.txt", str "x", false, false⟩]

/-- A small document with a `name` child and a sibling element. -/
def S3 : Str := str "<w><name>R</name><x /></w>"

/-- The element `S3` reads as. -/
def E3 : Elem := .mk (str "w") [] none
  [.mk (str "name") [] (some (str "R")) [] none, .mk (str "x") [] none [] none] none

/-- A document that carries an XML declaration. -/
def S10 : Str := str "<?xml version=\"1.0\"?><w />"

/-- The element `S10` reads as. -/
def E10 : Elem := .mk (str "w") [] none [] none

/-- A run configuration with root `[r]`. -/
def CFG6 : Cfg := { rootPath := [str "r"], outRoot := [str "r_tag"] }

/-- The walk position one level below the root of `CFG6`. -/
def CUR6 : Path := [str "r", str "G"]

/-- A state in which the directory `[r, G]` carries identifier `1`. -/
def ST6 : St :=
  { idMap := [([str "r", str "G"], str "1"), ([str "r"], [])], ctrMap := [],
    count := 0, written := [], createdDirs := [], errLog := [], updatedXml := none }

/-- A recognised workout file whose document is a bare `<w />`. -/
def F6 : FileEntry := ⟨str "a.zwo", str "<w />", false, false⟩

/-- What patching `<w />` with tag `1` and origin `File:r/G/a` produces. -/
def UPD6 : Str := str "<w><name> [1]</name><description>File:r/G/a:  </description></w>"

/-- A recognised file whose content is not XML. -/
def F7 : FileEntry := ⟨str "bad.xml", str "no", false, false⟩

/-- A run configuration with root `[r7]`. -/
def CFG7 : Cfg := { rootPath := [str "r7"], outRoot := [str "r7_tag"] }

/-- An empty starting state for exercising the file loop at the root. -/
def ST7 : St :=
  { idMap := [([str "r7"], [])], ctrMap := [], count := 0, written := [],
    createdDirs := [], errLog := [], updatedXml := none }

/-- A run configuration with root `[R4]`. -/
def CFG4 : Cfg := { rootPath := [str "R4"], outRoot := [str "O4"] }

/-- An empty starting state whose identifier map seeds the root of `CFG4`. -/
def ST4 : St :=
  { idMap := [([str "R4"], [])], ctrMap := [], count := 0, written := [],
    createdDirs := [], errLog := [], updatedXml := none }

end Tagwork

namespace Tagwork

/-! ## Helper lemmas: decimal strings and identifiers -/

theorem digitVal_digitChar {d : Nat} (h : d < 10) : digitVal (digitChar d) = d := by
  interval_cases d <;> decide

theorem digitChar_isDigit {d : Nat} (h : d < 10) : (digitChar d).isDigit = true := by
  interval_cases d <;> decide

theorem strToNatAux_append (a b : Str) (acc : Nat) :
    strToNatAux (a ++ b) acc = strToNatAux b (strToNatAux a acc) := by
  induction a generalizing acc with
  | nil => rfl
  | cons c r ih => simp [strToNatAux, ih]

theorem natStrAux_inv (fuel : Nat) : ∀ n acc, n ≤ fuel →
    strToNatAux (natStrAux fuel n) acc = acc * 10 ^ (natStrAux fuel n).length + n := by
  induction fuel with
  | zero => intro n acc h; interval_cases n; simp [natStrAux, strToNatAux]
  | succ fuel ih =>
    intro n acc h
    by_cases hn : n = 0
    · simp [natStrAux, hn, strToNatAux]
    · have hdiv : n / 10 ≤ fuel := by
        have : n / 10 < n := Nat.div_lt_self (Nat.pos_of_ne_zero hn) (by norm_num)
        omega
      rw [natStrAux, if_neg hn, strToNatAux_append, ih _ _ hdiv]
      have hmod : digitVal (digitChar (n % 10)) = n % 10 :=
        digitVal_digitChar (Nat.mod_lt _ (by norm_num))
      have hn10 : n / 10 * 10 + n % 10 = n := by omega
      simp only [strToNatAux, hmod, List.length_append, List.length_cons,
        List.length_nil, Nat.zero_add]
      generalize (natStrAux fuel (n / 10)).length = L
      rw [Nat.pow_succ]
      have hx : (acc * 10 ^ L + n / 10) * 10 + n % 10
          = acc * (10 ^ L * 10) + (n / 10 * 10 + n % 10) := by ring
      rw [hx, hn10]

theorem strToNat_natStr (n : Nat) : strToNat (natStr n) = n := by
  by_cases hn : n = 0
  · simp [natStr, hn, strToNat, strToNatAux, digitVal]
  · rw [natStr, if_neg hn, strToNat, natStrAux_inv (n + 1) n 0 (by omega)]
    simp

theorem natStr_injective {a b : Nat} (h : natStr a = natStr b) : a = b := by
  have := strToNat_natStr a
  rw [h, strToNat_natStr] at this
  omega

theorem natStr_ne_nil (n : Nat) : natStr n ≠ [] := by
  by_cases hn : n = 0
  · simp [natStr, hn]
  · rw [natStr, if_neg hn, natStrAux, if_neg hn]
    simp

theorem mem_natStrAux_isDigit (fuel : Nat) :
    ∀ n c, c ∈ natStrAux fuel n → c.isDigit = true := by
  induction fuel with
  | zero => intro n c h; simp [natStrAux] at h
  | succ fuel ih =>
    intro n c h
    rw [natStrAux] at h
    by_cases hn : n = 0
    · simp [hn] at h
    · rw [if_neg hn] at h
      rcases List.mem_append.mp h with h1 | h1
      · exact ih _ _ h1
      · simp at h1
        subst h1
        exact digitChar_isDigit (Nat.mod_lt _ (by norm_num))

theorem mem_natStr_isDigit {n : Nat} {c : Char} (h : c ∈ natStr n) : c.isDigit = true := by
  by_cases hn : n = 0
  · simp [natStr, hn] at h; subst h; decide
  · rw [natStr, if_neg hn] at h; exact mem_natStrAux_isDigit _ _ _ h

theorem isDigit_ne_dash {c : Char} (h : c.isDigit = true) : c ≠ '-' := by
  intro he; subst he; simp at h

theorem dash_not_mem_natStr (n : Nat) : '-' ∉ natStr n := by
  intro h
  exact isDigit_ne_dash (mem_natStr_isDigit h) rfl

theorem natStr_idStr (n : Nat) : idStr (natStr n) = true := by
  simp only [idStr, List.all_eq_true]
  intro c hc
  simp [idChar, mem_natStr_isDigit hc]

theorem encodePos_ne_nil {l : List Nat} (h : l ≠ []) : encodePos l ≠ [] := by
  match l with
  | [] => exact absurd rfl h
  | [i] => simp only [encodePos]; exact natStr_ne_nil i
  | i :: j :: rest =>
    simp only [encodePos]
    intro hc
    exact natStr_ne_nil i (List.append_eq_nil.mp hc).1

theorem encodePos_append_single (l : List Nat) (k : Nat) :
    encodePos (l ++ [k]) = childId (encodePos l) k := by
  induction l with
  | nil => simp [encodePos, childId]
  | cons i rest ih =>
    match rest with
    | [] => simp [encodePos, childId, natStr_ne_nil i]
    | j :: rest' =>
      have hne2 : encodePos (j :: rest') ≠ [] := encodePos_ne_nil (by simp)
      have hne : encodePos (i :: j :: rest') ≠ [] := encodePos_ne_nil (by simp)
      have hch : childId (encodePos (i :: j :: rest')) k
          = encodePos (i :: j :: rest') ++ '-' :: natStr k := by
        rw [childId, if_neg hne]
      have hch2 : childId (encodePos (j :: rest')) k
          = encodePos (j :: rest') ++ '-' :: natStr k := by
        rw [childId, if_neg hne2]
      have ihx : encodePos (j :: (rest' ++ [k])) = childId (encodePos (j :: rest')) k := ih
      show natStr i ++ '-' :: encodePos (j :: (rest' ++ [k]))
          = childId (encodePos (i :: j :: rest')) k
      rw [ihx, hch2, hch]
      show natStr i ++ '-' :: (encodePos (j :: rest') ++ '-' :: natStr k)
          = (natStr i ++ '-' :: encodePos (j :: rest')) ++ '-' :: natStr k
      simp

theorem splitDash_no_dash {a : Str} (h : '-' ∉ a) : splitDash a = [a] := by
  induction a with
  | nil => rfl
  | cons c r ih =>
    have hc : c ≠ '-' := fun he => h (he ▸ List.mem_cons_self c r)
    have hr : '-' ∉ r := fun hm => h (List.mem_cons_of_mem c hm)
    rw [splitDash, if_neg hc, ih hr]

theorem splitDash_append {a : Str} (r : Str) (h : '-' ∉ a) :
    splitDash (a ++ '-' :: r) = a :: splitDash r := by
  induction a with
  | nil => simp [splitDash]
  | cons c a' ih =>
    have hc : c ≠ '-' := fun he => h (he ▸ List.mem_cons_self c a')
    have ha' : '-' ∉ a' := fun hm => h (List.mem_cons_of_mem c hm)
    rw [List.cons_append, splitDash, if_neg hc, ih ha']

theorem splitDash_encodePos_cons (l : List Nat) : ∀ i : Nat,
    splitDash (encodePos (i :: l)) = natStr i :: l.map natStr := by
  induction l with
  | nil => intro i; simp [encodePos, splitDash_no_dash (dash_not_mem_natStr i)]
  | cons j rest ih =>
    intro i
    show splitDash (natStr i ++ '-' :: encodePos (j :: rest)) = _
    rw [splitDash_append _ (dash_not_mem_natStr i), ih j, List.map_cons]

theorem splitDash_encodePos {l : List Nat} (h : l ≠ []) :
    splitDash (encodePos l) = l.map natStr := by
  match l with
  | i :: l' => rw [splitDash_encodePos_cons l' i, List.map_cons]

theorem map_natStr_injective : ∀ {a b : List Nat}, a.map natStr = b.map natStr → a = b := by
  intro a
  induction a with
  | nil => intro b h; cases b <;> simp_all
  | cons x a' ih =>
    intro b h
    cases b with
    | nil => simp at h
    | cons y b' =>
      simp only [List.map_cons, List.cons.injEq] at h
      exact by rw [natStr_injective h.1, ih h.2]

theorem encodePos_injective : ∀ {a b : List Nat}, encodePos a = encodePos b → a = b := by
  intro a b h
  match a, b with
  | [], [] => rfl
  | [], x :: a' => exact absurd h.symm (encodePos_ne_nil (by simp))
  | x :: a', [] => exact absurd h (encodePos_ne_nil (by simp))
  | x :: a', y :: b' =>
    have := splitDash_encodePos (l := x :: a') (by simp)
    rw [h, splitDash_encodePos (l := y :: b') (by simp)] at this
    exact map_natStr_injective this.symm

theorem childId_ne_nil (pid : Str) (k : Nat) : childId pid k ≠ [] := by
  by_cases h : pid = [] <;> simp [childId, h, natStr_ne_nil k]

theorem childId_idStr {pid : Str} (k : Nat) (h : idStr pid = true) :
    idStr (childId pid k) = true := by
  by_cases hp : pid = []
  · simp [childId, hp, natStr_idStr]
  · simp only [childId, if_neg hp, idStr, List.all_eq_true] at h ⊢
    intro c hc
    rcases List.mem_append.mp hc with h1 | h1
    · exact h c h1
    · rcases List.mem_cons.mp h1 with h2 | h2
      · subst h2; decide
      · have := natStr_idStr k
        simp only [idStr, List.all_eq_true] at this
        exact this c h2

end Tagwork

namespace Tagwork

/-! ## Helper lemmas: association lists -/

theorem keysOf_append {β : Type} (l1 l2 : List (Path × β)) :
    keysOf (l1 ++ l2) = keysOf l1 ++ keysOf l2 := by
  simp [keysOf]

theorem keysOf_cons {β : Type} (kv : Path × β) (l : List (Path × β)) :
    keysOf (kv :: l) = kv.1 :: keysOf l := by
  simp [keysOf]

theorem alookup_append_of_not_mem {β : Type} {l1 : List (Path × β)} (l2 : List (Path × β))
    {k : Path} (h : k ∉ keysOf l1) : alookup (l1 ++ l2) k = alookup l2 k := by
  induction l1 with
  | nil => rfl
  | cons kv rest ih =>
    rw [keysOf_cons] at h
    have hk : k ≠ kv.1 := fun he => h (he ▸ List.mem_cons_self _ _)
    have hr : k ∉ keysOf rest := fun hm => h (List.mem_cons_of_mem _ hm)
    show alookup ((kv.1, kv.2) :: (rest ++ l2)) k = alookup l2 k
    rw [alookup, if_neg hk]
    exact ih hr

theorem alookup_none_of_not_mem {β : Type} {l : List (Path × β)} {k : Path}
    (h : k ∉ keysOf l) : alookup l k = none := by
  induction l with
  | nil => rfl
  | cons kv rest ih =>
    rw [keysOf_cons] at h
    have hk : k ≠ kv.1 := fun he => h (he ▸ List.mem_cons_self _ _)
    have hr : k ∉ keysOf rest := fun hm => h (List.mem_cons_of_mem _ hm)
    show alookup ((kv.1, kv.2) :: rest) k = none
    rw [alookup, if_neg hk]
    exact ih hr

theorem alookup_mem {β : Type} {l : List (Path × β)} {k : Path} {v : β}
    (h : alookup l k = some v) : (k, v) ∈ l := by
  induction l with
  | nil => simp [alookup] at h
  | cons kv rest ih =>
    rw [show kv = (kv.1, kv.2) from rfl, alookup] at h
    by_cases he : k = kv.1
    · rw [if_pos he] at h
      have hv : kv.2 = v := Option.some_inj.mp h
      rw [show kv = (kv.1, kv.2) from rfl, ← he, ← hv]
      exact List.mem_cons_self _ _
    · rw [if_neg he] at h
      exact List.mem_cons_of_mem _ (ih h)

theorem mem_keysOf_of_mem {β : Type} {l : List (Path × β)} {k : Path} {v : β}
    (h : (k, v) ∈ l) : k ∈ keysOf l := by
  induction l with
  | nil => simp at h
  | cons kv rest ih =>
    rw [keysOf_cons]
    rcases List.mem_cons.mp h with h1 | h1
    · rw [← h1]
      exact List.mem_cons_self _ _
    · exact List.mem_cons_of_mem _ (ih h1)

theorem alookup_of_mem_nodup {β : Type} {l : List (Path × β)} {k : Path} {v : β}
    (hm : (k, v) ∈ l) (hn : (keysOf l).Nodup) : alookup l k = some v := by
  induction l with
  | nil => simp at hm
  | cons kv rest ih =>
    rw [keysOf_cons, List.nodup_cons] at hn
    rcases List.mem_cons.mp hm with h1 | h1
    · rw [← h1]
      show alookup ((k, v) :: rest) k = some v
      rw [alookup, if_pos rfl]
    · have hk : k ≠ kv.1 := by
        intro he
        exact hn.1 (he ▸ mem_keysOf_of_mem h1)
      show alookup ((kv.1, kv.2) :: rest) k = some v
      rw [alookup, if_neg hk]
      exact ih h1 hn.2

end Tagwork

namespace Tagwork

/-! ## Helper lemmas: `takeWhile` / `dropWhile` splitting and escapes -/

theorem isNot_self (x : Char) : isNot x x = false := by simp [isNot]

theorem isNot_of_ne {x c : Char} (h : c ≠ x) : isNot x c = true := by simp [isNot, h]

theorem takeWhile_append_of {p : Char → Bool} {a : Str} (x : Char) (r : Str)
    (hall : ∀ c ∈ a, p c = true) (hx : p x = false) :
    (a ++ x :: r).takeWhile p = a := by
  induction a with
  | nil => simp [List.takeWhile, hx]
  | cons c a' ih =>
    have hc : p c = true := hall c (List.mem_cons_self _ _)
    simp only [List.cons_append, List.takeWhile, hc]
    show c :: (a' ++ x :: r).takeWhile p = c :: a'
    rw [ih (fun d hd => hall d (List.mem_cons_of_mem _ hd))]

theorem dropWhile_append_of {p : Char → Bool} {a : Str} (x : Char) (r : Str)
    (hall : ∀ c ∈ a, p c = true) (hx : p x = false) :
    (a ++ x :: r).dropWhile p = x :: r := by
  induction a with
  | nil => simp [List.dropWhile, hx]
  | cons c a' ih =>
    have hc : p c = true := hall c (List.mem_cons_self _ _)
    simp only [List.cons_append, List.dropWhile, hc]
    exact ih (fun d hd => hall d (List.mem_cons_of_mem _ hd))

theorem lt_not_mem_escText (s : Str) : '<' ∉ escText s := by
  induction s with
  | nil => simp [escText]
  | cons x r ih =>
    rw [escText]
    intro h
    rcases List.mem_append.mp h with h1 | h1
    · split_ifs at h1 with ha hb hc
      · exact absurd h1 (by decide)
      · exact absurd h1 (by decide)
      · exact absurd h1 (by decide)
      · rcases List.mem_singleton.mp h1 with rfl
        exact hb rfl
    · exact ih h1

theorem lt_not_mem_escAttr (s : Str) : '<' ∉ escAttr s := by
  induction s with
  | nil => simp [escAttr]
  | cons x r ih =>
    rw [escAttr]
    intro h
    rcases List.mem_append.mp h with h1 | h1
    · split_ifs at h1 with h1' h2' h3' h4' h5' h6' h7'
      · exact absurd h1 (by decide)
      · exact absurd h1 (by decide)
      · exact absurd h1 (by decide)
      · exact absurd h1 (by decide)
      · exact absurd h1 (by decide)
      · exact absurd h1 (by decide)
      · exact absurd h1 (by decide)
      · rcases List.mem_singleton.mp h1 with rfl
        exact h2' rfl
    · exact ih h1

theorem quot_not_mem_escAttr (s : Str) : '"' ∉ escAttr s := by
  induction s with
  | nil => simp [escAttr]
  | cons x r ih =>
    rw [escAttr]
    intro h
    rcases List.mem_append.mp h with h1 | h1
    · split_ifs at h1 with h1' h2' h3' h4' h5' h6' h7'
      · exact absurd h1 (by decide)
      · exact absurd h1 (by decide)
      · exact absurd h1 (by decide)
      · exact absurd h1 (by decide)
      · exact absurd h1 (by decide)
      · exact absurd h1 (by decide)
      · exact absurd h1 (by decide)
      · rcases List.mem_singleton.mp h1 with rfl
        exact h4' rfl
    · exact ih h1

theorem parseRef_amp (r : Str) : parseRef ('a' :: 'm' :: 'p' :: ';' :: r) = some ('&', r) := rfl

theorem parseRef_lt (r : Str) : parseRef ('l' :: 't' :: ';' :: r) = some ('<', r) := rfl

theorem parseRef_gt (r : Str) : parseRef ('g' :: 't' :: ';' :: r) = some ('>', r) := rfl

theorem parseRef_quot (r : Str) :
    parseRef ('q' :: 'u' :: 'o' :: 't' :: ';' :: r) = some ('"', r) := rfl

theorem parseRef_d13 (r : Str) :
    parseRef ('#' :: '1' :: '3' :: ';' :: r) = some ('\r', r) := by
  show (match ('1' :: '3' :: ';' :: r).takeWhile Char.isDigit,
      ('1' :: '3' :: ';' :: r).dropWhile Char.isDigit with
    | [], _ => none
    | _ :: _, ';' :: r3 =>
      some (Char.ofNat (strToNat (('1' :: '3' :: ';' :: r).takeWhile Char.isDigit)), r3)
    | _ :: _, _ => none) = some ('\r', r)
  simp [List.takeWhile, List.dropWhile, strToNat, strToNatAux, digitVal]

theorem parseRef_d10 (r : Str) :
    parseRef ('#' :: '1' :: '0' :: ';' :: r) = some ('\n', r) := by
  show (match ('1' :: '0' :: ';' :: r).takeWhile Char.isDigit,
      ('1' :: '0' :: ';' :: r).dropWhile Char.isDigit with
    | [], _ => none
    | _ :: _, ';' :: r3 =>
      some (Char.ofNat (strToNat (('1' :: '0' :: ';' :: r).takeWhile Char.isDigit)), r3)
    | _ :: _, _ => none) = some ('\n', r)
  simp [List.takeWhile, List.dropWhile, strToNat, strToNatAux, digitVal]

theorem parseRef_d09 (r : Str) :
    parseRef ('#' :: '0' :: '9' :: ';' :: r) = some ('\t', r) := by
  show (match ('0' :: '9' :: ';' :: r).takeWhile Char.isDigit,
      ('0' :: '9' :: ';' :: r).dropWhile Char.isDigit with
    | [], _ => none
    | _ :: _, ';' :: r3 =>
      some (Char.ofNat (strToNat (('0' :: '9' :: ';' :: r).takeWhile Char.isDigit)), r3)
    | _ :: _, _ => none) = some ('\t', r)
  simp [List.takeWhile, List.dropWhile, strToNat, strToNatAux, digitVal]

end Tagwork

namespace Tagwork

/-! ## Unescaping inverts escaping -/

theorem unescapeF_escText (s : Str) : ∀ fuel, (escText s).length < fuel →
    unescapeF fuel (escText s) = some s := by
  induction s with
  | nil => intro fuel _; cases fuel <;> rfl
  | cons c r ih =>
    intro fuel h
    by_cases h1 : c = '&'
    · subst h1
      have hs : escText ('&' :: r) = '&' :: ('a' :: 'm' :: 'p' :: ';' :: escText r) := rfl
      rw [hs] at h ⊢
      obtain ⟨f, rfl⟩ : ∃ f, fuel = f + 1 := ⟨fuel - 1, by omega⟩
      have hlen : (escText r).length < f := by simp at h; omega
      simp only [unescapeF]
      rw [if_pos trivial, parseRef_amp]
      show Option.map (fun t => '&' :: t) (unescapeF f (escText r)) = some ('&' :: r)
      rw [ih f hlen]
      rfl
    · by_cases h2 : c = '<'
      · subst h2
        have hs : escText ('<' :: r) = '&' :: ('l' :: 't' :: ';' :: escText r) := rfl
        rw [hs] at h ⊢
        obtain ⟨f, rfl⟩ : ∃ f, fuel = f + 1 := ⟨fuel - 1, by omega⟩
        have hlen : (escText r).length < f := by simp at h; omega
        simp only [unescapeF]
        rw [if_pos trivial, parseRef_lt]
        show Option.map (fun t => '<' :: t) (unescapeF f (escText r)) = some ('<' :: r)
        rw [ih f hlen]
        rfl
      · by_cases h3 : c = '>'
        · subst h3
          have hs : escText ('>' :: r) = '&' :: ('g' :: 't' :: ';' :: escText r) := rfl
          rw [hs] at h ⊢
          obtain ⟨f, rfl⟩ : ∃ f, fuel = f + 1 := ⟨fuel - 1, by omega⟩
          have hlen : (escText r).length < f := by simp at h; omega
          simp only [unescapeF]
          rw [if_pos trivial, parseRef_gt]
          show Option.map (fun t => '>' :: t) (unescapeF f (escText r)) = some ('>' :: r)
          rw [ih f hlen]
          rfl
        · have hs : escText (c :: r) = c :: escText r := by
            rw [escText, if_neg h1, if_neg h2, if_neg h3]
            rfl
          rw [hs] at h ⊢
          obtain ⟨f, rfl⟩ : ∃ f, fuel = f + 1 := ⟨fuel - 1, by omega⟩
          have hlen : (escText r).length < f := by simp at h; omega
          simp only [unescapeF]
          rw [if_neg h1, if_neg h2, ih f hlen]
          rfl

theorem unescape_escText (s : Str) : unescape (escText s) = some s :=
  unescapeF_escText s _ (by omega)

theorem unescapeF_escAttr (s : Str) : ∀ fuel, (escAttr s).length < fuel →
    unescapeF fuel (escAttr s) = some s := by
  induction s with
  | nil => intro fuel _; cases fuel <;> rfl
  | cons c r ih =>
    intro fuel h
    by_cases h1 : c = '&'
    · subst h1
      have hs : escAttr ('&' :: r) = '&' :: ('a' :: 'm' :: 'p' :: ';' :: escAttr r) := rfl
      rw [hs] at h ⊢
      obtain ⟨f, rfl⟩ : ∃ f, fuel = f + 1 := ⟨fuel - 1, by omega⟩
      have hlen : (escAttr r).length < f := by simp at h; omega
      simp only [unescapeF]
      rw [if_pos trivial, parseRef_amp]
      show Option.map (fun t => '&' :: t) (unescapeF f (escAttr r)) = some ('&' :: r)
      rw [ih f hlen]
      rfl
    · by_cases h2 : c = '<'
      · subst h2
        have hs : escAttr ('<' :: r) = '&' :: ('l' :: 't' :: ';' :: escAttr r) := rfl
        rw [hs] at h ⊢
        obtain ⟨f, rfl⟩ : ∃ f, fuel = f + 1 := ⟨fuel - 1, by omega⟩
        have hlen : (escAttr r).length < f := by simp at h; omega
        simp only [unescapeF]
        rw [if_pos trivial, parseRef_lt]
        show Option.map (fun t => '<' :: t) (unescapeF f (escAttr r)) = some ('<' :: r)
        rw [ih f hlen]
        rfl
      · by_cases h3 : c = '>'
        · subst h3
          have hs : escAttr ('>' :: r) = '&' :: ('g' :: 't' :: ';' :: escAttr r) := rfl
          rw [hs] at h ⊢
          obtain ⟨f, rfl⟩ : ∃ f, fuel = f + 1 := ⟨fuel - 1, by omega⟩
          have hlen : (escAttr r).length < f := by simp at h; omega
          simp only [unescapeF]
          rw [if_pos trivial, parseRef_gt]
          show Option.map (fun t => '>' :: t) (unescapeF f (escAttr r)) = some ('>' :: r)
          rw [ih f hlen]
          rfl
        · by_cases h4 : c = '"'
          · subst h4
            have hs : escAttr ('"' :: r)
                = '&' :: ('q' :: 'u' :: 'o' :: 't' :: ';' :: escAttr r) := rfl
            rw [hs] at h ⊢
            obtain ⟨f, rfl⟩ : ∃ f, fuel = f + 1 := ⟨fuel - 1, by omega⟩
            have hlen : (escAttr r).length < f := by simp at h; omega
            simp only [unescapeF]
            rw [if_pos trivial, parseRef_quot]
            show Option.map (fun t => '\"' :: t) (unescapeF f (escAttr r)) = some ('\"' :: r)
            rw [ih f hlen]
            rfl
          · by_cases h5 : c = '\r'
            · subst h5
              have hs : escAttr ('\r' :: r)
                  = '&' :: ('#' :: '1' :: '3' :: ';' :: escAttr r) := rfl
              rw [hs] at h ⊢
              obtain ⟨f, rfl⟩ : ∃ f, fuel = f + 1 := ⟨fuel - 1, by omega⟩
              have hlen : (escAttr r).length < f := by simp at h; omega
              simp only [unescapeF]
              rw [if_pos trivial, parseRef_d13]
              show Option.map (fun t => '\r' :: t) (unescapeF f (escAttr r)) = some ('\r' :: r)
              rw [ih f hlen]
              rfl
            · by_cases h6 : c = '\n'
              · subst h6
                have hs : escAttr ('\n' :: r)
                    = '&' :: ('#' :: '1' :: '0' :: ';' :: escAttr r) := rfl
                rw [hs] at h ⊢
                obtain ⟨f, rfl⟩ : ∃ f, fuel = f + 1 := ⟨fuel - 1, by omega⟩
                have hlen : (escAttr r).length < f := by simp at h; omega
                simp only [unescapeF]
                rw [if_pos trivial, parseRef_d10]
                show Option.map (fun t => '\n' :: t) (unescapeF f (escAttr r)) = some ('\n' :: r)
                rw [ih f hlen]
                rfl
              · by_cases h7 : c = '\t'
                · subst h7
                  have hs : escAttr ('\t' :: r)
                      = '&' :: ('#' :: '0' :: '9' :: ';' :: escAttr r) := rfl
                  rw [hs] at h ⊢
                  obtain ⟨f, rfl⟩ : ∃ f, fuel = f + 1 := ⟨fuel - 1, by omega⟩
                  have hlen : (escAttr r).length < f := by simp at h; omega
                  simp only [unescapeF]
                  rw [if_pos trivial, parseRef_d09]
                  show Option.map (fun t => '\t' :: t) (unescapeF f (escAttr r)) = some ('\t' :: r)
                  rw [ih f hlen]
                  rfl
                · have hs : escAttr (c :: r) = c :: escAttr r := by
                    rw [escAttr, if_neg h1, if_neg h2, if_neg h3, if_neg h4,
                      if_neg h5, if_neg h6, if_neg h7]
                    rfl
                  rw [hs] at h ⊢
                  obtain ⟨f, rfl⟩ : ∃ f, fuel = f + 1 := ⟨fuel - 1, by omega⟩
                  have hlen : (escAttr r).length < f := by simp at h; omega
                  simp only [unescapeF]
                  rw [if_neg h1, if_neg h2, ih f hlen]
                  rfl

theorem unescape_escAttr (s : Str) : unescape (escAttr s) = some s :=
  unescapeF_escAttr s _ (by omega)

end Tagwork

namespace Tagwork

/-! ## Reading back serialised names, attributes, text -/

theorem goodName_parts {s : Str} (h : goodName s = true) :
    ∃ c cr, s = c :: cr ∧ nameStartChar c = true ∧ ∀ d ∈ s, nameChar d = true := by
  match s with
  | [] => simp [goodName] at h
  | c :: cr =>
    simp only [goodName, Bool.and_eq_true, List.all_eq_true] at h
    exact ⟨c, cr, rfl, h.1, h.2⟩

theorem nameStart_nameChar {c : Char} (h : nameStartChar c = true) : nameChar c = true := by
  simp [nameChar, h]

theorem nameStart_not_ws {c : Char} (h : nameStartChar c = true) : xmlWS c = false := by
  by_contra hw
  have hw' : xmlWS c = true := by
    cases hx : xmlWS c
    · exact absurd hx hw
    · rfl
  simp only [xmlWS, Bool.or_eq_true, decide_eq_true_eq] at hw'
  rcases hw' with ((rfl | rfl) | rfl) | rfl <;> simp [nameStartChar] at h

theorem nameStart_ne_slash {c : Char} (h : nameStartChar c = true) : c ≠ '/' := by
  intro he; subst he; simp [nameStartChar] at h

theorem nameStart_ne_question {c : Char} (h : nameStartChar c = true) : c ≠ '?' := by
  intro he; subst he; simp [nameStartChar] at h

theorem parseName_ser {nm : Str} (h : goodName nm = true) {x : Char}
    (hx : nameChar x = false) (r : Str) :
    parseName (nm ++ x :: r) = some (nm, x :: r) := by
  obtain ⟨c, cr, rfl, hc, hall⟩ := goodName_parts h
  show parseName (c :: (cr ++ x :: r)) = _
  rw [parseName, if_pos hc]
  rw [show (c :: (cr ++ x :: r)) = (c :: cr) ++ x :: r from rfl]
  rw [takeWhile_append_of x r hall hx, dropWhile_append_of x r hall hx]

theorem dropWhile_ws_cons {x : Char} (hx : xmlWS x = false) (r : Str) :
    (x :: r).dropWhile xmlWS = x :: r := by
  simp [List.dropWhile, hx]

theorem serAttrs_length_ge (attrs : List (Str × Str)) :
    attrs.length ≤ (serAttrs attrs).length := by
  induction attrs with
  | nil => simp [serAttrs]
  | cons kv rest ih =>
    obtain ⟨k, v⟩ := kv
    simp only [serAttrs, List.length_cons, List.length_append]
    omega

theorem parseAttrs_ser (attrs : List (Str × Str)) :
    ∀ (fuel : Nat) (tl : Str) (d : Char) (u : Str),
    (∀ kv ∈ attrs, goodName kv.1 = true) → attrs.length < fuel →
    tl.dropWhile xmlWS = d :: u → (d = '>' ∨ d = '/') →
    parseAttrs fuel (serAttrs attrs ++ tl) = some (attrs, d :: u) := by
  induction attrs with
  | nil =>
    intro fuel tl d u _ hfuel htl hd
    obtain ⟨f, rfl⟩ : ∃ f, fuel = f + 1 := ⟨fuel - 1, by omega⟩
    have hns : nameStartChar d = false := by
      rcases hd with rfl | rfl <;> decide
    show parseAttrs (f + 1) tl = _
    rw [parseAttrs, htl]
    simp [hns]
  | cons kv rest ih =>
    intro fuel tl d u hgood hfuel htl hd
    obtain ⟨k, v⟩ := kv
    obtain ⟨f, rfl⟩ : ∃ f, fuel = f + 1 := ⟨fuel - 1, by omega⟩
    have hk : goodName k = true := hgood (k, v) (List.mem_cons_self _ _)
    obtain ⟨c, cr, hkc, hc, hall⟩ := goodName_parts hk
    have hstep : serAttrs ((k, v) :: rest) ++ tl
        = ' ' :: (k ++ '=' :: '"' :: (escAttr v ++ '"' :: (serAttrs rest ++ tl))) := by
      simp [serAttrs]
    have hdw : (' ' :: (k ++ '=' :: '"' :: (escAttr v ++ '"' :: (serAttrs rest ++ tl)))).dropWhile
        xmlWS = c :: (cr ++ '=' :: '"' :: (escAttr v ++ '"' :: (serAttrs rest ++ tl))) := by
      rw [List.dropWhile, show xmlWS ' ' = true from rfl, hkc]
      show (c :: (cr ++ '=' :: '"' :: (escAttr v ++ '"' :: (serAttrs rest ++ tl)))).dropWhile
          xmlWS = _
      rw [dropWhile_ws_cons (nameStart_not_ws hc)]
    have hpn : parseName (c :: (cr ++ '=' :: '"' :: (escAttr v ++ '"' :: (serAttrs rest ++ tl))))
        = some (c :: cr, '=' :: '"' :: (escAttr v ++ '"' :: (serAttrs rest ++ tl))) := by
      have h2 := parseName_ser hk (x := '=') (by decide)
        ('"' :: (escAttr v ++ '"' :: (serAttrs rest ++ tl)))
      rw [hkc] at h2
      exact h2
    have htw : (escAttr v ++ '"' :: (serAttrs rest ++ tl)).takeWhile (isNot '"') = escAttr v :=
      takeWhile_append_of _ _
        (fun ch hch => isNot_of_ne (fun he => quot_not_mem_escAttr v (he ▸ hch)))
        (isNot_self '"')
    have hdw2 : (escAttr v ++ '"' :: (serAttrs rest ++ tl)).dropWhile (isNot '"')
        = '"' :: (serAttrs rest ++ tl) :=
      dropWhile_append_of _ _
        (fun ch hch => isNot_of_ne (fun he => quot_not_mem_escAttr v (he ▸ hch)))
        (isNot_self '"')
    have hrec := ih f tl d u (fun kv' hm => hgood kv' (List.mem_cons_of_mem _ hm))
      (by simp only [List.length_cons] at hfuel; omega) htl hd
    rw [hstep, parseAttrs, hdw, hkc]
    simp [hc, hpn, htw, hdw2, unescape_escAttr, hrec]

end Tagwork

namespace Tagwork

/-! ## Small facts about optional text, tails and serialiser sizes -/

theorem strOpt_getD {txt : Option Str} (h : optNE txt = true) : strOpt (txt.getD []) = txt := by
  match txt with
  | none => rfl
  | some [] => simp [optNE] at h
  | some (c :: r) => rfl

theorem unescape_serOptText {txt : Option Str} :
    unescape (serOptText txt) = some (txt.getD []) := by
  match txt with
  | none => rfl
  | some s => exact unescape_escText s

theorem setTail_setTail (e : Elem) (t1 t2 : Option Str) :
    setTail (setTail e t1) t2 = setTail e t2 := by
  cases e; rfl

theorem setTail_self (e : Elem) : setTail e e.tail = e := by
  cases e; rfl

theorem setTail_tail (e : Elem) (t : Option Str) : (setTail e t).tail = t := by
  cases e; rfl

theorem wfElem_setTail {e : Elem} {t : Option Str} (he : wfElem e = true)
    (ht : optNE t = true) : wfElem (setTail e t) = true := by
  obtain ⟨tag, attrs, text, children, tail⟩ := e
  simp only [wfElem, setTail, Bool.and_eq_true] at he ⊢
  exact ⟨⟨⟨⟨he.1.1.1.1, he.1.1.1.2⟩, he.1.1.2⟩, ht⟩, he.2⟩

theorem serElem_len (tag : Str) (attrs : List (Str × Str)) (text : Option Str)
    (children : List Elem) (tail : Option Str) :
    (serChildren children).length + 2 ≤ (serElem (.mk tag attrs text children tail)).length := by
  match text, children with
  | none, [] => simp [serElem, serChildren, str]; omega
  | some tx, [] => simp [serElem, serChildren, str]; omega
  | none, c :: cs => simp [serElem, str]; omega
  | some tx, c :: cs => simp [serElem, str]; omega

theorem needList_pos (cs : List Elem) : 1 ≤ needList cs := by
  cases cs <;> simp [needList]

theorem needElem_pos (e : Elem) : 2 ≤ needElem e := by
  obtain ⟨tag, attrs, text, children, tail⟩ := e
  have := needList_pos children
  simp only [needElem]
  omega

theorem need_le_ser (n : Nat) :
    (∀ e : Elem, sizeOf e ≤ n → needElem e ≤ (serElem e).length) ∧
    (∀ cs : List Elem, sizeOf cs ≤ n → needList cs ≤ (serChildren cs).length + 1) := by
  induction n using Nat.strong_induction_on with
  | _ n IH =>
    constructor
    · intro e hsz
      obtain ⟨tag, attrs, text, children, tail⟩ := e
      have hszc : sizeOf children < n := by
        have hs := Elem.mk.sizeOf_spec tag attrs text children tail
        omega
      have h2 := (IH (sizeOf children) hszc).2 children (le_refl _)
      have h3 := serElem_len tag attrs text children tail
      simp only [needElem]
      omega
    · intro cs hsz
      match cs with
      | [] => simp [needList, serChildren]
      | c :: cs' =>
        have hszc : sizeOf c < n := by
          have hs : sizeOf (c :: cs') = 1 + sizeOf c + sizeOf cs' := by
            simp [List.cons.sizeOf_spec]
          omega
        have hszr : sizeOf cs' < n := by
          have hs : sizeOf (c :: cs') = 1 + sizeOf c + sizeOf cs' := by
            simp [List.cons.sizeOf_spec]
          omega
        have h1 := (IH (sizeOf c) hszc).1 c (le_refl _)
        have h2 := (IH (sizeOf cs') hszr).2 cs' (le_refl _)
        obtain ⟨tg, at', tx, ch, tl⟩ := c
        have h3 := serElem_len tg at' tx ch tl
        simp only [needList, serChildren, List.length_append]
        omega

end Tagwork

namespace Tagwork

/-! ## Reading back a serialised element -/

theorem wfElem_parts {tag : Str} {attrs : List (Str × Str)} {text : Option Str}
    {children : List Elem} {tail : Option Str}
    (h : wfElem (.mk tag attrs text children tail) = true) :
    goodName tag = true ∧ (∀ kv ∈ attrs, goodName kv.1 = true) ∧ optNE text = true ∧
      optNE tail = true ∧ wfList children = true := by
  simp only [wfElem, Bool.and_eq_true, List.all_eq_true] at h
  exact ⟨h.1.1.1.1, h.1.1.1.2, h.1.1.2, h.1.2, h.2⟩

theorem wfList_parts {c : Elem} {cs : List Elem} (h : wfList (c :: cs) = true) :
    wfElem c = true ∧ wfList cs = true := by
  simp only [wfList, Bool.and_eq_true] at h
  exact h

theorem wfElem_tail_ne {e : Elem} (h : wfElem e = true) : optNE e.tail = true := by
  obtain ⟨tag, attrs, text, children, tail⟩ := e
  exact (wfElem_parts h).2.2.2.1

theorem serElem_shape {e : Elem} (h : wfElem e = true) :
    ∃ hc Z, serElem e = '<' :: (hc :: Z) ∧ nameStartChar hc = true := by
  obtain ⟨tag, attrs, text, children, tail⟩ := e
  obtain ⟨htag, _, _, _, _⟩ := wfElem_parts h
  obtain ⟨c, cr, rfl, hc, _⟩ := goodName_parts htag
  match text, children with
  | none, [] =>
    exact ⟨c, cr ++ (serAttrs attrs ++ str " />"), by simp [serElem], hc⟩
  | some tx, [] =>
    refine ⟨c, cr ++ (serAttrs attrs ++ ('>' :: (escText tx ++
      ('<' :: '/' :: (c :: cr) ++ ['>'])))), ?_, hc⟩
    simp [serElem, serOptText, serChildren]
  | none, d :: ds =>
    refine ⟨c, cr ++ (serAttrs attrs ++ ('>' :: (serChildren (d :: ds) ++
      ('<' :: '/' :: (c :: cr) ++ ['>'])))), ?_, hc⟩
    simp [serElem, serOptText]
  | some tx, d :: ds =>
    refine ⟨c, cr ++ (serAttrs attrs ++ ('>' :: (escText tx ++ (serChildren (d :: ds) ++
      ('<' :: '/' :: (c :: cr) ++ ['>']))))), ?_, hc⟩
    simp [serElem, serOptText]

theorem parseElem_empty_step (f : Nat) (tag : Str) (attrs : List (Str × Str)) (rest : Str)
    (htag : goodName tag = true) (hattrs : ∀ kv ∈ attrs, goodName kv.1 = true) :
    parseElem (f + 1) ('<' :: (tag ++ (serAttrs attrs ++ (' ' :: '/' :: '>' :: rest))))
      = some (.mk tag attrs none [] none, rest) := by
  have hpn : parseName (tag ++ (serAttrs attrs ++ (' ' :: '/' :: '>' :: rest)))
      = some (tag, serAttrs attrs ++ (' ' :: '/' :: '>' :: rest)) := by
    cases attrs with
    | nil => exact parseName_ser htag (by decide) _
    | cons kv ats =>
      obtain ⟨k, v⟩ := kv
      have hx : serAttrs ((k, v) :: ats) ++ (' ' :: '/' :: '>' :: rest)
          = ' ' :: ((k ++ '=' :: '"' :: escAttr v ++ ['"']) ++
              (serAttrs ats ++ (' ' :: '/' :: '>' :: rest))) := by
        simp [serAttrs]
      rw [hx]
      exact parseName_ser htag (by decide) _
  have hd : (' ' :: '/' :: '>' :: rest).dropWhile xmlWS = '/' :: ('>' :: rest) := by
    simp [List.dropWhile, xmlWS]
  have hpa := parseAttrs_ser attrs
    ((serAttrs attrs ++ (' ' :: '/' :: '>' :: rest)).length + 1)
    (' ' :: '/' :: '>' :: rest) '/' ('>' :: rest) hattrs
    (by have := serAttrs_length_ge attrs; simp only [List.length_append]; omega)
    hd (Or.inr rfl)
  simp only [parseElem, hpn, hpa]

theorem parseElem_nonempty_step (f : Nat) (tag : Str) (attrs : List (Str × Str))
    (text : Option Str) (children : List Elem) (rest : Str)
    (htag : goodName tag = true) (hattrs : ∀ kv ∈ attrs, goodName kv.1 = true)
    (hcont : parseContent f (serOptText text ++ (serChildren children ++
        '<' :: '/' :: (tag ++ '>' :: rest))) = some (text, children, tag ++ '>' :: rest)) :
    parseElem (f + 1) ('<' :: (tag ++ (serAttrs attrs ++ ('>' :: (serOptText text ++
        (serChildren children ++ ('<' :: '/' :: (tag ++ '>' :: rest))))))))
      = some (.mk tag attrs text children none, rest) := by
  have hpn : parseName (tag ++ (serAttrs attrs ++ ('>' :: (serOptText text ++
      (serChildren children ++ ('<' :: '/' :: (tag ++ '>' :: rest)))))))
      = some (tag, serAttrs attrs ++ ('>' :: (serOptText text ++
        (serChildren children ++ ('<' :: '/' :: (tag ++ '>' :: rest)))))) := by
    cases attrs with
    | nil => exact parseName_ser htag (by decide) _
    | cons kv ats =>
      obtain ⟨k, v⟩ := kv
      have hx : serAttrs ((k, v) :: ats) ++ ('>' :: (serOptText text ++
          (serChildren children ++ ('<' :: '/' :: (tag ++ '>' :: rest)))))
          = ' ' :: ((k ++ '=' :: '"' :: escAttr v ++ ['"']) ++
              (serAttrs ats ++ ('>' :: (serOptText text ++
                (serChildren children ++ ('<' :: '/' :: (tag ++ '>' :: rest))))))) := by
        simp [serAttrs]
      rw [hx]
      exact parseName_ser htag (by decide) _
  have hd : ('>' :: (serOptText text ++ (serChildren children ++
      ('<' :: '/' :: (tag ++ '>' :: rest))))).dropWhile xmlWS
      = '>' :: (serOptText text ++ (serChildren children ++
        ('<' :: '/' :: (tag ++ '>' :: rest)))) :=
    dropWhile_ws_cons (by decide) _
  have hpa := parseAttrs_ser attrs
    ((serAttrs attrs ++ ('>' :: (serOptText text ++ (serChildren children ++
      ('<' :: '/' :: (tag ++ '>' :: rest)))))).length + 1)
    ('>' :: (serOptText text ++ (serChildren children ++
      ('<' :: '/' :: (tag ++ '>' :: rest)))))
    '>' (serOptText text ++ (serChildren children ++ ('<' :: '/' :: (tag ++ '>' :: rest))))
    hattrs
    (by have := serAttrs_length_ge attrs; simp only [List.length_append]; omega)
    hd (Or.inl rfl)
  have hcont' : parseContent f (serOptText text ++ (serChildren children ++
      ('<' :: '/' :: (tag ++ '>' :: rest)))) = some (text, children, tag ++ '>' :: rest) :=
    hcont
  have hpn2 : parseName (tag ++ '>' :: rest) = some (tag, '>' :: rest) :=
    parseName_ser htag (by decide) _
  have hd2 : ('>' :: rest).dropWhile xmlWS = '>' :: rest := dropWhile_ws_cons (by decide) _
  simp only [parseElem, hpn, hpa, hcont', hpn2, hd2]
  rw [if_pos trivial]

theorem parseContent_nil_step (f : Nat) (txt : Option Str) (u : Str)
    (htxt : optNE txt = true) :
    parseContent (f + 1) (serOptText txt ++ (serChildren [] ++ '<' :: '/' :: u))
      = some (txt, [], u) := by
  have hin : serOptText txt ++ (serChildren [] ++ '<' :: '/' :: u)
      = serOptText txt ++ '<' :: ('/' :: u) := by
    simp [serChildren]
  have hall : ∀ c ∈ serOptText txt, isNot '<' c = true := by
    intro c hc
    match txt, hc with
    | some s, hc => exact isNot_of_ne (fun he => lt_not_mem_escText s (he ▸ hc))
  have htk : (serOptText txt ++ '<' :: ('/' :: u)).takeWhile (isNot '<') = serOptText txt :=
    takeWhile_append_of _ _ hall (isNot_self '<')
  have hdr : (serOptText txt ++ '<' :: ('/' :: u)).dropWhile (isNot '<') = '<' :: ('/' :: u) :=
    dropWhile_append_of _ _ hall (isNot_self '<')
  rw [hin]
  simp only [parseContent, htk, hdr, unescape_serOptText, strOpt_getD htxt]
  simp [List.head?]

theorem parseContent_cons_step (f : Nat) (txt : Option Str) (c : Elem) (cs' : List Elem)
    (u : Str) (htxt : optNE txt = true) (hcwf : wfElem c = true)
    (hpe : parseElem f (serElem c ++ (serOptText c.tail ++ (serChildren cs' ++
        '<' :: '/' :: u))) = some (setTail c none, serOptText c.tail ++
        (serChildren cs' ++ '<' :: '/' :: u)))
    (hpc : parseContent f (serOptText c.tail ++ (serChildren cs' ++ '<' :: '/' :: u))
        = some (c.tail, cs', u)) :
    parseContent (f + 1) (serOptText txt ++ (serChildren (c :: cs') ++ '<' :: '/' :: u))
      = some (txt, c :: cs', u) := by
  obtain ⟨hc, Z, hshape, hcns⟩ := serElem_shape hcwf
  have hin : serOptText txt ++ (serChildren (c :: cs') ++ '<' :: '/' :: u)
      = serOptText txt ++ '<' :: (hc :: (Z ++ (serOptText c.tail ++
          (serChildren cs' ++ '<' :: '/' :: u)))) := by
    show serOptText txt ++ ((serElem c ++ serOptText c.tail ++ serChildren cs')
        ++ '<' :: '/' :: u) = _
    rw [hshape]
    simp
  have hall : ∀ ch ∈ serOptText txt, isNot '<' ch = true := by
    intro ch hch
    match txt, hch with
    | some s, hch => exact isNot_of_ne (fun he => lt_not_mem_escText s (he ▸ hch))
  have htk : (serOptText txt ++ '<' :: (hc :: (Z ++ (serOptText c.tail ++
      (serChildren cs' ++ '<' :: '/' :: u))))).takeWhile (isNot '<') = serOptText txt :=
    takeWhile_append_of _ _ hall (isNot_self '<')
  have hdr : (serOptText txt ++ '<' :: (hc :: (Z ++ (serOptText c.tail ++
      (serChildren cs' ++ '<' :: '/' :: u))))).dropWhile (isNot '<')
      = '<' :: (hc :: (Z ++ (serOptText c.tail ++ (serChildren cs' ++ '<' :: '/' :: u)))) :=
    dropWhile_append_of _ _ hall (isNot_self '<')
  have hback : '<' :: (hc :: (Z ++ (serOptText c.tail ++ (serChildren cs' ++
      '<' :: '/' :: u)))) = serElem c ++ (serOptText c.tail ++ (serChildren cs' ++
      '<' :: '/' :: u)) := by
    rw [hshape]
    simp
  have hhd : ¬ ((hc :: (Z ++ (serOptText c.tail ++ (serChildren cs' ++
      '<' :: '/' :: u)))).head? = some '/') := by
    simp only [List.head?]
    intro hq
    exact nameStart_ne_slash hcns (Option.some_inj.mp hq)
  have hpe2 : parseElem f ('<' :: (hc :: (Z ++ (serOptText c.tail ++
      (serChildren cs' ++ '<' :: '/' :: u)))))
      = some (setTail c none, serOptText c.tail ++ (serChildren cs' ++ '<' :: '/' :: u)) := by
    rw [hback]
    exact hpe
  rw [hin]
  simp only [parseContent, htk, hdr, unescape_serOptText, strOpt_getD htxt, if_neg hhd,
    hpe2, hpc, setTail_setTail, setTail_self]

theorem parse_ser (n : Nat) :
    (∀ e : Elem, sizeOf e ≤ n → wfElem e = true → ∀ fuel, needElem e ≤ fuel → ∀ rest : Str,
      parseElem fuel (serElem e ++ rest) = some (setTail e none, rest)) ∧
    (∀ cs : List Elem, sizeOf cs ≤ n → wfList cs = true →
      ∀ txt : Option Str, optNE txt = true → ∀ fuel, needList cs ≤ fuel → ∀ u : Str,
      parseContent fuel (serOptText txt ++ (serChildren cs ++ '<' :: '/' :: u))
        = some (txt, cs, u)) := by
  induction n using Nat.strong_induction_on with
  | _ n IH =>
    constructor
    · intro e hsz hwf fuel hfuel rest
      obtain ⟨tag, attrs, text, children, tail⟩ := e
      obtain ⟨htag, hattrs, htext, htail, hch⟩ := wfElem_parts hwf
      have hszc : sizeOf children < n := by
        have hs := Elem.mk.sizeOf_spec tag attrs text children tail
        omega
      obtain ⟨f, rfl⟩ : ∃ f, fuel = f + 1 :=
        ⟨fuel - 1, by have := needElem_pos (Elem.mk tag attrs text children tail); omega⟩
      have hfc : needList children ≤ f := by
        simp only [needElem] at hfuel
        omega
      have hcont : parseContent f (serOptText text ++ (serChildren children ++
          '<' :: '/' :: (tag ++ '>' :: rest))) = some (text, children, tag ++ '>' :: rest) :=
        (IH (sizeOf children) hszc).2 children (le_refl _) hch text htext f hfc _
      match text, children, htext, hch with
      | none, [], _, _ =>
        have hser : serElem (Elem.mk tag attrs none [] tail) ++ rest
            = '<' :: (tag ++ (serAttrs attrs ++ (' ' :: '/' :: '>' :: rest))) := by
          simp [serElem, str]
        rw [hser, parseElem_empty_step f tag attrs rest htag hattrs]
        rfl
      | some tx, [], htext, hch =>
        have hser : serElem (Elem.mk tag attrs (some tx) [] tail) ++ rest
            = '<' :: (tag ++ (serAttrs attrs ++ ('>' :: (serOptText (some tx) ++
                (serChildren ([] : List Elem) ++ ('<' :: '/' :: (tag ++ '>' :: rest))))))) := by
          simp [serElem, serOptText, serChildren, str]
        rw [hser, parseElem_nonempty_step f tag attrs (some tx) [] rest htag hattrs hcont]
        rfl
      | none, d :: ds, htext, hch =>
        have hser : serElem (Elem.mk tag attrs none (d :: ds) tail) ++ rest
            = '<' :: (tag ++ (serAttrs attrs ++ ('>' :: (serOptText none ++
                (serChildren (d :: ds) ++ ('<' :: '/' :: (tag ++ '>' :: rest))))))) := by
          simp [serElem, serOptText, str]
        rw [hser, parseElem_nonempty_step f tag attrs none (d :: ds) rest htag hattrs hcont]
        rfl
      | some tx, d :: ds, htext, hch =>
        have hser : serElem (Elem.mk tag attrs (some tx) (d :: ds) tail) ++ rest
            = '<' :: (tag ++ (serAttrs attrs ++ ('>' :: (serOptText (some tx) ++
                (serChildren (d :: ds) ++ ('<' :: '/' :: (tag ++ '>' :: rest))))))) := by
          simp [serElem, serOptText, str]
        rw [hser, parseElem_nonempty_step f tag attrs (some tx) (d :: ds) rest htag hattrs hcont]
        rfl
    · intro cs hsz hwf txt htxt fuel hfuel u
      obtain ⟨f, rfl⟩ : ∃ f, fuel = f + 1 := ⟨fuel - 1, by have := needList_pos cs; omega⟩
      match cs, hwf with
      | [], _ => exact parseContent_nil_step f txt u htxt
      | c :: cs', hwf =>
        obtain ⟨hcwf, hcswf⟩ := wfList_parts hwf
        have hszc : sizeOf c < n := by
          have hs : sizeOf (c :: cs') = 1 + sizeOf c + sizeOf cs' := by
            simp [List.cons.sizeOf_spec]
          omega
        have hszr : sizeOf cs' < n := by
          have hs : sizeOf (c :: cs') = 1 + sizeOf c + sizeOf cs' := by
            simp [List.cons.sizeOf_spec]
          omega
        have hfc : needElem c ≤ f ∧ needList cs' ≤ f := by
          simp only [needList] at hfuel
          constructor <;> omega
        have hpe := (IH (sizeOf c) hszc).1 c (le_refl _) hcwf f hfc.1
          (serOptText c.tail ++ (serChildren cs' ++ '<' :: '/' :: u))
        have hpc := (IH (sizeOf cs') hszr).2 cs' (le_refl _) hcswf c.tail
          (wfElem_tail_ne hcwf) f hfc.2 u
        exact parseContent_cons_step f txt c cs' u htxt hcwf hpe hpc

end Tagwork

namespace Tagwork

/-! ## What reading produces is well-formed -/

theorem optNE_strOpt (s : Str) : optNE (strOpt s) = true := by
  cases s <;> rfl

theorem parseName_good {s nm r : Str} (h : parseName s = some (nm, r)) :
    goodName nm = true := by
  match s with
  | [] => simp [parseName] at h
  | c :: cr =>
    rw [parseName] at h
    by_cases hc : nameStartChar c = true
    · rw [if_pos hc] at h
      obtain ⟨h1, _⟩ := Prod.mk.injEq .. ▸ Option.some_inj.mp h
      have htw : (c :: cr).takeWhile nameChar = c :: cr.takeWhile nameChar := by
        simp [List.takeWhile, nameStart_nameChar hc]
      rw [← h1, htw]
      simp only [goodName, Bool.and_eq_true, List.all_eq_true]
      refine ⟨hc, ?_⟩
      intro d hd
      rcases List.mem_cons.mp hd with rfl | hd2
      · exact nameStart_nameChar hc
      · exact List.mem_takeWhile_imp hd2
    · rw [if_neg hc] at h
      simp at h
  
theorem parseAttrs_good : ∀ (fuel : Nat) (s : Str) (attrs : List (Str × Str)) (r : Str),
    parseAttrs fuel s = some (attrs, r) → ∀ kv ∈ attrs, goodName kv.1 = true := by
  intro fuel
  induction fuel with
  | zero => intro s attrs r h; simp [parseAttrs] at h
  | succ f ih =>
    intro s attrs r h
    rw [parseAttrs] at h
    repeat' split at h
    any_goals simp at h
    · obtain ⟨h1, _⟩ := h
      subst h1
      intro kv hm
      simp at hm
    · rename_i hname x2 x1 r4 v hdw hun xo attrs1 r5 hrec
      obtain ⟨h1, _⟩ := h
      subst h1
      intro kv hm
      rcases List.mem_cons.mp hm with rfl | hm2
      · exact parseName_good hname
      · exact ih _ _ _ hrec kv hm2
    · obtain ⟨h1, _⟩ := h
      subst h1
      intro kv hm
      simp at hm

end Tagwork

namespace Tagwork

theorem parse_wf : ∀ fuel : Nat,
    (∀ s e r, parseElem fuel s = some (e, r) → wfElem e = true ∧ e.tail = none) ∧
    (∀ s txt cs r, parseContent fuel s = some (txt, cs, r) →
      optNE txt = true ∧ wfList cs = true) := by
  intro fuel
  induction fuel with
  | zero =>
    constructor
    · intro s e r h; simp [parseElem] at h
    · intro s txt cs r h; simp [parseContent] at h
  | succ f ih =>
    constructor
    · intro s e r h
      rcases s with _ | ⟨c, r0⟩
      · rw [parseElem] at h
        · simp at h
        · intro r' hx
          simp at hx
      · by_cases hc : c = '<'
        · subst hc
          rw [parseElem] at h
          repeat' split at h
          any_goals simp at h
          · rename_i x1 base ext hname xo attrs r2 r3 hpa
            obtain ⟨he, _⟩ := h
            subst he
            refine ⟨?_, rfl⟩
            have h1 := parseName_good hname
            have h2 := parseAttrs_good _ _ _ _ hpa
            simp only [wfElem, wfList, optNE, Bool.and_eq_true, List.all_eq_true]
            exact ⟨⟨⟨⟨h1, fun kv hm => h2 kv hm⟩, trivial⟩, trivial⟩, trivial⟩
          · rename_i x4 base1 ext1 hname x3 attrs r2 r3 hpa x2 text children r5 hcont
              x1 cbase cext hname2 hbb xx r7 hdw
            obtain ⟨he, _⟩ := h
            subst he
            refine ⟨?_, rfl⟩
            have h1 := parseName_good hname
            have h2 := parseAttrs_good _ _ _ _ hpa
            obtain ⟨h3, h4⟩ := ih.2 _ _ _ _ hcont
            simp only [wfElem, wfList, optNE, Bool.and_eq_true, List.all_eq_true]
            exact ⟨⟨⟨⟨h1, fun kv hm => h2 kv hm⟩, h3⟩, trivial⟩, h4⟩
        · rw [parseElem] at h
          · simp at h
          · intro r' hx
            injection hx with h1 _
            exact hc h1
    · intro s txt cs r h
      rw [parseContent] at h
      repeat' split at h
      any_goals simp at h
      · rename_i t s1 hun xx rr hdw hhd
        obtain ⟨h1, h2, _⟩ := h
        subst h1
        subst h2
        exact ⟨optNE_strOpt s1, rfl⟩
      · rename_i t s1 hun x2 rr hdw hhd x1 child r1 hpe xx text children r5 hpc
        obtain ⟨h1, h2, _⟩ := h
        subst h1
        subst h2
        obtain ⟨hwc, _⟩ := ih.1 _ _ _ hpe
        obtain ⟨htx, hwcs⟩ := ih.2 _ _ _ _ hpc
        refine ⟨optNE_strOpt s1, ?_⟩
        simp only [wfList, Bool.and_eq_true]
        exact ⟨wfElem_setTail hwc htx, hwcs⟩

end Tagwork

namespace Tagwork

/-! ## Document-level round trip -/

theorem skipDecl_ser {e : Elem} (h : wfElem e = true) :
    skipDecl (serElem e) = some (serElem e) := by
  obtain ⟨hc, Z, hsh, hns⟩ := serElem_shape h
  rw [skipDecl, if_neg ?_]
  rw [hsh]
  show ¬ leadsWith (str "<?xml") ('<' :: (hc :: Z)) = true
  have hq : decide ('?' = hc) = false :=
    decide_eq_false (fun he => nameStart_ne_question hns he.symm)
  show ¬ (decide ('<' = '<') && (decide ('?' = hc) && leadsWith ('x' :: 'm' :: 'l' :: []) Z))
      = true
  rw [hq]
  simp

theorem parseDoc_tostring {t : Elem} (hwf : wfElem t = true) (ht : t.tail = none) :
    parseDoc (tostring t) = some t := by
  have h0 : tostring t = serElem t := by
    rw [tostring, ht]
    simp [serOptText]
  obtain ⟨hc, Z, hsh, hns⟩ := serElem_shape hwf
  have hskip : skipDecl (serElem t) = some (serElem t) := skipDecl_ser hwf
  have hdw : (serElem t).dropWhile xmlWS = serElem t := by
    rw [hsh]
    exact dropWhile_ws_cons (by decide) _
  have hfuel : needElem t ≤ (serElem t).length + 1 :=
    Nat.le_succ_of_le ((need_le_ser (sizeOf t)).1 t (le_refl _))
  have hpe : parseElem ((serElem t).length + 1) (serElem t) = some (setTail t none, []) := by
    have h1 := (parse_ser (sizeOf t)).1 t (le_refl _) hwf ((serElem t).length + 1) hfuel []
    rw [List.append_nil] at h1
    exact h1
  have hst : setTail t none = t := by
    rw [← ht]
    exact setTail_self t
  rw [parseDoc, h0, hskip]
  simp only [hdw, hpe, hst]
  simp [List.dropWhile]

theorem parseDoc_wf {s : Str} {t : Elem} (h : parseDoc s = some t) :
    wfElem t = true ∧ t.tail = none := by
  rw [parseDoc] at h
  repeat' split at h
  any_goals simp at h
  rename_i t0 s1 hsd x1 child r1 hpe xx hrest
  obtain rfl := h
  exact (parse_wf _).1 _ _ _ hpe

end Tagwork

namespace Tagwork

/-! ## Characterising the patcher -/

theorem patchField_root (tag : Str) (f : Elem → Elem) (root : Elem) :
    (patchField tag f root).tag = root.tag ∧ (patchField tag f root).attrs = root.attrs ∧
    (patchField tag f root).text = root.text ∧ (patchField tag f root).tail = root.tail := by
  rw [patchField]
  split <;> exact ⟨rfl, rfl, rfl, rfl⟩

theorem updFirst_none_iff (tag : Str) (f : Elem → Elem) (cs : List Elem) :
    updFirst tag f cs = none ↔ findChild tag cs = none := by
  induction cs with
  | nil => simp [updFirst, findChild]
  | cons c cs ih =>
    rw [updFirst, findChild]
    by_cases hct : c.tag = tag
    · simp [hct]
    · simp only [if_neg hct]
      rw [← ih]
      cases updFirst tag f cs <;> simp

theorem findChild_updFirst_self (tag : Str) (f : Elem → Elem)
    (htagf : ∀ x, (f x).tag = x.tag) :
    ∀ (cs cs' : List Elem), updFirst tag f cs = some cs' →
      findChild tag cs' = (findChild tag cs).map f := by
  intro cs
  induction cs with
  | nil => intro cs' h; simp [updFirst] at h
  | cons c cs ih =>
    intro cs' h
    rw [updFirst] at h
    by_cases hct : c.tag = tag
    · rw [if_pos hct] at h
      obtain rfl := Option.some_inj.mp h
      rw [findChild, if_pos (htagf c ▸ hct), findChild, if_pos hct]
      rfl
    · rw [if_neg hct] at h
      match hu : updFirst tag f cs with
      | none => rw [hu] at h; simp at h
      | some l =>
        rw [hu] at h
        obtain rfl : c :: l = cs' := by simpa using h
        rw [findChild, if_neg hct, findChild, if_neg hct]
        exact ih l hu

theorem findChild_updFirst_other (tag tag' : Str) (f : Elem → Elem) (hne : tag' ≠ tag)
    (htagf : ∀ x, (f x).tag = x.tag) :
    ∀ (cs cs' : List Elem), updFirst tag f cs = some cs' →
      findChild tag' cs' = findChild tag' cs := by
  intro cs
  induction cs with
  | nil => intro cs' h; simp [updFirst] at h
  | cons c cs ih =>
    intro cs' h
    rw [updFirst] at h
    by_cases hct : c.tag = tag
    · rw [if_pos hct] at h
      obtain rfl := Option.some_inj.mp h
      have h1 : (f c).tag ≠ tag' := by rw [htagf c, hct]; exact fun he => hne he.symm
      have h2 : c.tag ≠ tag' := by rw [hct]; exact fun he => hne he.symm
      rw [findChild, if_neg h1, findChild, if_neg h2]
    · rw [if_neg hct] at h
      match hu : updFirst tag f cs with
      | none => rw [hu] at h; simp at h
      | some l =>
        rw [hu] at h
        obtain rfl : c :: l = cs' := by simpa using h
        rw [findChild, findChild]
        by_cases hct' : c.tag = tag'
        · rw [if_pos hct', if_pos hct']
        · rw [if_neg hct', if_neg hct']
          exact ih l hu

theorem findChild_append (tag : Str) (cs ds : List Elem) :
    findChild tag (cs ++ ds)
      = match findChild tag cs with
        | some c => some c
        | none => findChild tag ds := by
  induction cs with
  | nil => simp [findChild]
  | cons c cs ih =>
    rw [List.cons_append, findChild, findChild]
    by_cases hct : c.tag = tag
    · simp [hct]
    · simp only [if_neg hct]
      exact ih

theorem isOther_of_tag_eq {x y : Elem} (h : x.tag = y.tag) : isOther x = isOther y := by
  rw [isOther, isOther, h]

theorem filter_isOther_updFirst (tag : Str) (f : Elem → Elem)
    (htagf : ∀ x, (f x).tag = x.tag) (htg : ∀ x : Elem, x.tag = tag → isOther x = false) :
    ∀ (cs cs' : List Elem), updFirst tag f cs = some cs' →
      cs'.filter isOther = cs.filter isOther := by
  intro cs
  induction cs with
  | nil => intro cs' h; simp [updFirst] at h
  | cons c cs ih =>
    intro cs' h
    rw [updFirst] at h
    by_cases hct : c.tag = tag
    · rw [if_pos hct] at h
      obtain rfl := Option.some_inj.mp h
      have h1 : isOther (f c) = false := by
        rw [isOther_of_tag_eq (htagf c)]
        exact htg c hct
      rw [List.filter, List.filter, h1, htg c hct]
    · rw [if_neg hct] at h
      match hu : updFirst tag f cs with
      | none => rw [hu] at h; simp at h
      | some l =>
        rw [hu] at h
        obtain rfl : c :: l = cs' := by simpa using h
        rw [List.filter, List.filter]
        cases isOther c
        · exact ih l hu
        · rw [ih l hu]

theorem wfList_updFirst (tag : Str) (f : Elem → Elem)
    (hwf : ∀ x, wfElem x = true → wfElem (f x) = true) :
    ∀ (cs cs' : List Elem), wfList cs = true → updFirst tag f cs = some cs' →
      wfList cs' = true := by
  intro cs
  induction cs with
  | nil => intro cs' _ h; simp [updFirst] at h
  | cons c cs ih =>
    intro cs' hw h
    obtain ⟨hwc, hwcs⟩ := wfList_parts hw
    rw [updFirst] at h
    by_cases hct : c.tag = tag
    · rw [if_pos hct] at h
      obtain rfl := Option.some_inj.mp h
      simp only [wfList, Bool.and_eq_true]
      exact ⟨hwf c hwc, hwcs⟩
    · rw [if_neg hct] at h
      match hu : updFirst tag f cs with
      | none => rw [hu] at h; simp at h
      | some l =>
        rw [hu] at h
        obtain rfl : c :: l = cs' := by simpa using h
        simp only [wfList, Bool.and_eq_true]
        exact ⟨hwc, ih l hwcs hu⟩

theorem wfList_append_singleton {cs : List Elem} {d : Elem} (hw : wfList cs = true)
    (hd : wfElem d = true) : wfList (cs ++ [d]) = true := by
  induction cs with
  | nil => simp [wfList, hd]
  | cons c cs ih =>
    obtain ⟨hwc, hwcs⟩ := wfList_parts hw
    simp only [List.cons_append, wfList, Bool.and_eq_true]
    exact ⟨hwc, ih hwcs⟩

end Tagwork

namespace Tagwork

theorem wfElem_eq (e : Elem) :
    wfElem e = (goodName e.tag && e.attrs.all (fun kv => goodName kv.1) && optNE e.text &&
      optNE e.tail && wfList e.children) := by
  cases e; rfl

theorem optNE_some {x : Str} (h : x ≠ []) : optNE (some x) = true := by
  cases x
  · exact absurd rfl h
  · rfl

theorem setNameText_tag (gid : Str) (x : Elem) : (setNameText gid x).tag = x.tag := by
  cases x; rfl

theorem setDescText_tag (fdir : Str) (x : Elem) : (setDescText fdir x).tag = x.tag := by
  cases x; rfl

theorem setNameText_text (gid : Str) (x : Elem) :
    (setNameText gid x).text = some ((x.text.getD []) ++ str " [" ++ gid ++ str "]") := by
  cases x; rfl

theorem setDescText_text (fdir : Str) (x : Elem) :
    (setDescText fdir x).text = some (fdir ++ str ":  " ++ (x.text.getD [])) := by
  cases x; rfl

theorem wf_setNameText (gid : Str) {x : Elem} (h : wfElem x = true) :
    wfElem (setNameText gid x) = true := by
  obtain ⟨tag, attrs, text, children, tail⟩ := x
  obtain ⟨h1, h2, h3, h4, h5⟩ := wfElem_parts h
  show wfElem (.mk tag attrs (some ((text.getD []) ++ str " [" ++ gid ++ str "]"))
    children tail) = true
  simp only [wfElem, Bool.and_eq_true, List.all_eq_true]
  refine ⟨⟨⟨⟨h1, h2⟩, ?_⟩, h4⟩, h5⟩
  apply optNE_some
  intro hx
  rw [List.append_eq_nil] at hx
  exact absurd hx.2 (by simp [str])

theorem wf_setDescText (fdir : Str) {x : Elem} (h : wfElem x = true) :
    wfElem (setDescText fdir x) = true := by
  obtain ⟨tag, attrs, text, children, tail⟩ := x
  obtain ⟨h1, h2, h3, h4, h5⟩ := wfElem_parts h
  show wfElem (.mk tag attrs (some (fdir ++ str ":  " ++ (text.getD []))) children tail) = true
  simp only [wfElem, Bool.and_eq_true, List.all_eq_true]
  refine ⟨⟨⟨⟨h1, h2⟩, ?_⟩, h4⟩, h5⟩
  apply optNE_some
  intro hx
  rw [List.append_eq_nil, List.append_eq_nil] at hx
  exact absurd hx.1.2 (by simp [str])

theorem patchField_children (tag : Str) (f : Elem → Elem)
    (htagf : ∀ x, (f x).tag = x.tag) (root : Elem) :
    (patchField tag f root).children
      = match updFirst tag f root.children with
        | some cs => cs
        | none => root.children ++ [f (newElem tag)] := by
  rw [patchField]
  split <;> rfl

theorem patchField_findChild_self (tag : Str) (f : Elem → Elem)
    (htagf : ∀ x, (f x).tag = x.tag) (root : Elem) :
    findChild tag (patchField tag f root).children
      = some (match findChild tag root.children with
              | some c => f c
              | none => f (newElem tag)) := by
  rw [patchField_children tag f htagf]
  match hu : updFirst tag f root.children with
  | some cs' =>
    rw [findChild_updFirst_self tag f htagf root.children cs' hu]
    match hf : findChild tag root.children with
    | some c => rfl
    | none => rw [← updFirst_none_iff tag f] at hf; rw [hf] at hu; exact absurd hu (by simp)
  | none =>
    have hf : findChild tag root.children = none := (updFirst_none_iff tag f _).mp hu
    rw [findChild_append, hf]
    show findChild tag [f (newElem tag)] = _
    rw [findChild, if_pos (by rw [htagf]; rfl)]

theorem patchField_findChild_other (tag tag' : Str) (f : Elem → Elem) (hne : tag' ≠ tag)
    (htagf : ∀ x, (f x).tag = x.tag) (root : Elem) :
    findChild tag' (patchField tag f root).children = findChild tag' root.children := by
  rw [patchField_children tag f htagf]
  match hu : updFirst tag f root.children with
  | some cs' => exact findChild_updFirst_other tag tag' f hne htagf root.children cs' hu
  | none =>
    rw [findChild_append]
    match hf : findChild tag' root.children with
    | some c => rfl
    | none =>
      show findChild tag' [f (newElem tag)] = none
      rw [findChild, if_neg (by rw [htagf]; exact fun he => hne he.symm)]
      rfl

theorem patchField_filter (tag : Str) (f : Elem → Elem)
    (htagf : ∀ x, (f x).tag = x.tag) (htg : ∀ x : Elem, x.tag = tag → isOther x = false)
    (root : Elem) :
    (patchField tag f root).children.filter isOther = root.children.filter isOther := by
  rw [patchField_children tag f htagf]
  match hu : updFirst tag f root.children with
  | some cs' => exact filter_isOther_updFirst tag f htagf htg root.children cs' hu
  | none =>
    rw [List.filter_append]
    have : isOther (f (newElem tag)) = false := htg _ (htagf _)
    simp [List.filter, this]

theorem patchField_wfList (tag : Str) (f : Elem → Elem)
    (htagf : ∀ x, (f x).tag = x.tag)
    (hwff : ∀ x, wfElem x = true → wfElem (f x) = true) (hgn : goodName tag = true)
    (root : Elem) (hw : wfList root.children = true) :
    wfList (patchField tag f root).children = true := by
  rw [patchField_children tag f htagf]
  match hu : updFirst tag f root.children with
  | some cs' => exact wfList_updFirst tag f hwff root.children cs' hw hu
  | none =>
    apply wfList_append_singleton hw
    apply hwff
    show wfElem (Elem.mk tag [] none [] none) = true
    simp [wfElem, optNE, wfList, hgn]

end Tagwork

namespace Tagwork

theorem textOf_some (e : Elem) : textOf (some e) = e.text.getD [] := rfl

theorem isOther_name {x : Elem} (hx : x.tag = str "name") : isOther x = false := by
  rw [isOther, if_pos hx]

theorem isOther_desc {x : Elem} (hx : x.tag = str "description") : isOther x = false := by
  rw [isOther, hx]
  decide

theorem patchTree_root (t : Elem) (gid fdir : Str) :
    (patchTree t gid fdir).tag = t.tag ∧ (patchTree t gid fdir).attrs = t.attrs ∧
    (patchTree t gid fdir).text = t.text ∧ (patchTree t gid fdir).tail = t.tail := by
  obtain ⟨a1, a2, a3, a4⟩ := patchField_root (str "name") (setNameText gid) t
  obtain ⟨b1, b2, b3, b4⟩ := patchField_root (str "description") (setDescText fdir)
    (patchField (str "name") (setNameText gid) t)
  exact ⟨b1.trans a1, b2.trans a2, b3.trans a3, b4.trans a4⟩

theorem patchTree_nameText (t : Elem) (gid fdir : Str) :
    textOf (findChild (str "name") (patchTree t gid fdir).children)
      = textOf (findChild (str "name") t.children) ++ str " [" ++ gid ++ str "]" := by
  rw [patchTree,
    patchField_findChild_other (str "description") (str "name") (setDescText fdir)
      (by decide) (setDescText_tag fdir),
    patchField_findChild_self (str "name") (setNameText gid) (setNameText_tag gid) t]
  match findChild (str "name") t.children with
  | some c => rw [textOf_some, textOf_some, setNameText_text]; rfl
  | none => rw [textOf_some, setNameText_text]; rfl

theorem patchTree_descText (t : Elem) (gid fdir : Str) :
    textOf (findChild (str "description") (patchTree t gid fdir).children)
      = fdir ++ str ":  " ++ textOf (findChild (str "description") t.children) := by
  rw [patchTree,
    patchField_findChild_self (str "description") (setDescText fdir) (setDescText_tag fdir),
    patchField_findChild_other (str "name") (str "description") (setNameText gid)
      (by decide) (setNameText_tag gid) t]
  match findChild (str "description") t.children with
  | some c => rw [textOf_some, textOf_some, setDescText_text]; rfl
  | none => rw [textOf_some, setDescText_text]; rfl

theorem patchTree_name_isSome (t : Elem) (gid fdir : Str) :
    (findChild (str "name") (patchTree t gid fdir).children).isSome = true := by
  rw [patchTree,
    patchField_findChild_other (str "description") (str "name") (setDescText fdir)
      (by decide) (setDescText_tag fdir),
    patchField_findChild_self (str "name") (setNameText gid) (setNameText_tag gid) t]
  rfl

theorem patchTree_desc_isSome (t : Elem) (gid fdir : Str) :
    (findChild (str "description") (patchTree t gid fdir).children).isSome = true := by
  rw [patchTree,
    patchField_findChild_self (str "description") (setDescText fdir) (setDescText_tag fdir)]
  rfl

theorem patchTree_others (t : Elem) (gid fdir : Str) :
    othersOf (patchTree t gid fdir).children = othersOf t.children := by
  rw [othersOf, othersOf, patchTree,
    patchField_filter (str "description") (setDescText fdir) (setDescText_tag fdir)
      (fun x hx => isOther_desc hx),
    patchField_filter (str "name") (setNameText gid) (setNameText_tag gid)
      (fun x hx => isOther_name hx)]

theorem patchTree_wf {t : Elem} (gid fdir : Str) (hwf : wfElem t = true) :
    wfElem (patchTree t gid fdir) = true := by
  rw [wfElem_eq] at hwf
  simp only [Bool.and_eq_true] at hwf
  obtain ⟨⟨⟨⟨h1, h2⟩, h3⟩, h4⟩, h5⟩ := hwf
  obtain ⟨p1, p2, p3, p4⟩ := patchTree_root t gid fdir
  rw [wfElem_eq, p1, p2, p3, p4]
  simp only [Bool.and_eq_true]
  refine ⟨⟨⟨⟨h1, h2⟩, h3⟩, h4⟩, ?_⟩
  show wfList (patchField (str "description") (setDescText fdir)
    (patchField (str "name") (setNameText gid) t)).children = true
  apply patchField_wfList (str "description") (setDescText fdir) (setDescText_tag fdir)
    (fun x hx => wf_setDescText fdir hx) (by decide)
  exact patchField_wfList (str "name") (setNameText gid) (setNameText_tag gid)
    (fun x hx => wf_setNameText gid hx) (by decide) t h5

end Tagwork

namespace Tagwork

/-! ## The output-path computation -/

theorem tagLoop_good : ∀ (parts : List Str) (acc : Path) (idMap : List (Path × Str)),
    (∀ i, 1 ≤ i → i ≤ parts.length →
      ∃ v, alookup idMap (acc ++ parts.take i) = some v ∧ v ≠ [] ∧ idStr v = true) →
    ∀ s ∈ tagLoop idMap acc parts, GoodSeg s := by
  intro parts
  induction parts with
  | nil => intro acc idMap _ s hs; simp [tagLoop] at hs
  | cons p parts' ih =>
    intro acc idMap hyp s hs
    rw [tagLoop] at hs
    rcases List.mem_cons.mp hs with rfl | hs2
    · obtain ⟨v, hv, hvne, hvid⟩ := hyp 1 (le_refl _) (by simp)
      rw [List.take_succ_cons, List.take_zero] at hv
      rw [aget, hv]
      exact ⟨p, v, rfl, hvne, hvid⟩
    · apply ih (acc ++ [p]) idMap ?_ s hs2
      intro i hi1 hi2
      obtain ⟨v, hv, hvne, hvid⟩ := hyp (i + 1) (by omega) (by simp; omega)
      refine ⟨v, ?_, hvne, hvid⟩
      rw [← hv, List.take_succ_cons]
      simp

theorem computeOutputDir_good {cfg : Cfg} {idMap : List (Path × Str)} {rel : List Str}
    (h : TagsOk cfg idMap rel) :
    ∃ parts, computeOutputDir cfg idMap rel = cfg.outRoot ++ parts ∧
      ∀ s ∈ parts, GoodSeg s := by
  match rel with
  | [] => exact ⟨[], by simp [computeOutputDir], by intro s hs; simp at hs⟩
  | p :: rel' =>
    refine ⟨tagLoop idMap cfg.rootPath (p :: rel'), rfl, ?_⟩
    exact tagLoop_good (p :: rel') cfg.rootPath idMap h

theorem tagLoop_spec : ∀ (parts ids : List Str) (acc : Path) (idMap : List (Path × Str)),
    parts.length = ids.length →
    (∀ i (hi : i < parts.length) (hv : i < ids.length),
      alookup idMap (acc ++ parts.take (i + 1)) = some (ids.get ⟨i, hv⟩)) →
    tagLoop idMap acc parts = specTaggedSegs parts ids := by
  intro parts
  induction parts with
  | nil =>
    intro ids acc idMap hlen _
    match ids, hlen with
    | [], _ => rfl
  | cons p parts' ih =>
    intro ids acc idMap hlen hyp
    match ids, hlen with
    | v :: ids', hlen =>
      have h0 := hyp 0 (by simp) (by simp)
      rw [List.take_succ_cons, List.take_zero] at h0
      have hshift : ∀ i (hi : i < parts'.length) (hv : i < ids'.length),
          alookup idMap ((acc ++ [p]) ++ List.take (i + 1) parts')
            = some (ids'.get ⟨i, hv⟩) := by
        intro i hi hv
        have h2 := hyp (i + 1) (by simp; omega) (by simp; omega)
        rw [List.take_succ_cons] at h2
        have h3 : (acc ++ [p]) ++ List.take (i + 1) parts'
            = acc ++ p :: List.take (i + 1) parts' := by simp
        rw [h3]
        exact h2
      rw [tagLoop, aget, h0, ih ids' (acc ++ [p]) idMap (by simpa using hlen) hshift]
      rfl

end Tagwork

namespace Tagwork

/-! ## The file loop never touches the maps, and creates only tagged dirs -/

theorem processFile_ok {cfg : Cfg} {cur : Path} {st : St} {f : FileEntry} {st' : St}
    (h : processFile cfg cur st f = .ok st') :
    st'.idMap = st.idMap ∧ st'.ctrMap = st.ctrMap ∧
      (st'.createdDirs = st.createdDirs ∨
        st'.createdDirs = computeOutputDir cfg st.idMap (cur.drop cfg.rootPath.length)
          :: st.createdDirs) := by
  rw [processFile] at h
  simp only [writeStage] at h
  repeat' split at h
  any_goals simp at h
  · rw [← h]; exact ⟨rfl, rfl, Or.inl rfl⟩
  · rw [← h]; exact ⟨rfl, rfl, Or.inl rfl⟩
  · rw [← h]; exact ⟨rfl, rfl, Or.inr rfl⟩
  · rw [← h]; exact ⟨rfl, rfl, Or.inr rfl⟩
  · rw [← h]; exact ⟨rfl, rfl, Or.inr rfl⟩
  · rw [← h]; exact ⟨rfl, rfl, Or.inr rfl⟩

theorem processFile_good {cfg : Cfg} {cur : Path} {st : St} {f : FileEntry} {st' : St}
    (h : processFile cfg cur st f = .ok st')
    (hT : TagsOk cfg st.idMap (cur.drop cfg.rootPath.length)) (hG : GoodCreated cfg st) :
    GoodCreated cfg st' := by
  obtain ⟨_, _, hcr⟩ := processFile_ok h
  rcases hcr with hsame | hcons
  · intro q hq
    rw [hsame] at hq
    exact hG q hq
  · intro q hq
    rw [hcons] at hq
    rcases List.mem_cons.mp hq with rfl | hq2
    · exact computeOutputDir_good hT
    · exact hG q hq2

theorem processFiles_ok : ∀ (fs : List FileEntry) {cfg : Cfg} {cur : Path} {st st' : St},
    processFiles cfg cur st fs = .ok st' →
    st'.idMap = st.idMap ∧ st'.ctrMap = st.ctrMap ∧
      (TagsOk cfg st.idMap (cur.drop cfg.rootPath.length) → GoodCreated cfg st →
        GoodCreated cfg st') := by
  intro fs
  induction fs with
  | nil =>
    intro cfg cur st st' h
    obtain rfl : st = st' := by simpa [processFiles] using h
    exact ⟨rfl, rfl, fun _ hG => hG⟩
  | cons f fs ih =>
    intro cfg cur st st' h
    rw [processFiles] at h
    match hpf : processFile cfg cur st f with
    | .error e => rw [hpf] at h; simp at h
    | .ok st2 =>
      rw [hpf] at h
      obtain ⟨h1, h2, h3⟩ := processFile_ok hpf
      obtain ⟨g1, g2, g3⟩ := ih h
      refine ⟨g1.trans h1, g2.trans h2, ?_⟩
      intro hT hG
      apply g3
      · rw [h1]; exact hT
      · exact processFile_good hpf hT hG

end Tagwork

namespace Tagwork

/-! ## Shape of the expected identifier entries -/

theorem ne_of_len {a b : Path} (h : a.length ≠ b.length) : a ≠ b :=
  fun he => h (he ▸ rfl)

theorem sizeOf_subs_lt (nm : Str) (subs : List FSTree) (files : List FileEntry) :
    sizeOf subs < sizeOf (FSTree.dir nm subs files) := by
  simp only [FSTree.dir.sizeOf_spec]
  omega

theorem sizeOf_fstree_cons (t : FSTree) (ts : List FSTree) :
    sizeOf (t :: ts) = 1 + sizeOf t + sizeOf ts := by
  simp only [List.cons.sizeOf_spec]

theorem specForest_keys : ∀ (n : Nat) (ts : List FSTree) (p : Path) (pid : Str) (i : Nat),
    sizeOf ts ≤ n →
    ∀ kk ∈ keysOf (specForest p pid i ts), ∃ ext, ext ≠ [] ∧ kk = p ++ ext := by
  intro n
  induction n using Nat.strong_induction_on with
  | _ n IH =>
    intro ts p pid i hsz kk hm
    match ts with
    | [] => simp [specForest, keysOf] at hm
    | t :: ts' =>
      obtain ⟨nm, subs, files⟩ := t
      rw [specForest, keysOf_append] at hm
      rcases List.mem_append.mp hm with hm1 | hm2
      · rw [specTree, keysOf_cons] at hm1
        rcases List.mem_cons.mp hm1 with rfl | hm1b
        · exact ⟨[nm], by simp, rfl⟩
        · have hss : sizeOf subs < n := by
            have h1 := sizeOf_subs_lt nm subs files
            have h2 := sizeOf_fstree_cons (FSTree.dir nm subs files) ts'
            omega
          obtain ⟨ext, hne, hext⟩ := IH (sizeOf subs) hss subs (p ++ [nm])
            (childId pid i) 1 (le_refl _) kk hm1b
          exact ⟨nm :: ext, by simp, by rw [hext]; simp⟩
      · have hts : sizeOf ts' < n := by
          have h2 := sizeOf_fstree_cons (FSTree.dir nm subs files) ts'
          omega
        exact IH (sizeOf ts') hts ts' p pid (i + 1) (le_refl _) kk hm2

theorem specForest_vals : ∀ (n : Nat) (ts : List FSTree) (p : Path) (pid : Str) (i : Nat),
    sizeOf ts ≤ n → idStr pid = true →
    ∀ v ∈ valsOf (specForest p pid i ts), idStr v = true ∧ v ≠ [] := by
  intro n
  induction n using Nat.strong_induction_on with
  | _ n IH =>
    intro ts p pid i hsz hpid v hm
    match ts with
    | [] => simp [specForest, valsOf] at hm
    | t :: ts' =>
      obtain ⟨nm, subs, files⟩ := t
      rw [specForest] at hm
      rw [valsOf, List.map_append] at hm
      rcases List.mem_append.mp hm with hm1 | hm2
      · simp only [FSTree.dname] at hm1
        rw [specTree] at hm1
        rw [show ((p ++ [nm], childId pid i) :: specForest (p ++ [nm]) (childId pid i) 1 subs).map
              Prod.snd = childId pid i ::
              valsOf (specForest (p ++ [nm]) (childId pid i) 1 subs) from rfl] at hm1
        rcases List.mem_cons.mp hm1 with rfl | hm1b
        · exact ⟨childId_idStr i hpid, childId_ne_nil pid i⟩
        · have hss : sizeOf subs < n := by
            have h1 := sizeOf_subs_lt nm subs files
            have h2 := sizeOf_fstree_cons (FSTree.dir nm subs files) ts'
            omega
          exact IH (sizeOf subs) hss subs (p ++ [nm]) (childId pid i) 1 (le_refl _)
            (childId_idStr i hpid) v hm1b
      · have hts : sizeOf ts' < n := by
          have h2 := sizeOf_fstree_cons (FSTree.dir nm subs files) ts'
          omega
        exact IH (sizeOf ts') hts ts' p pid (i + 1) (le_refl _) hpid v hm2

end Tagwork

namespace Tagwork

/-! ## Lookup stability and the assignment step -/

theorem keysOf_reverse {β : Type} (l : List (Path × β)) :
    keysOf l.reverse = (keysOf l).reverse := by
  simp [keysOf]

theorem alookup_skip_exts {β : Type} {newl oldl : List (Path × β)} {k base : Path}
    (hk : k.length ≤ base.length)
    (hext : ∀ kk ∈ keysOf newl, ∃ ext, ext ≠ [] ∧ kk = base ++ ext) :
    alookup (newl ++ oldl) k = alookup oldl k := by
  apply alookup_append_of_not_mem
  intro hmem
  obtain ⟨ext, hne, hkk⟩ := hext k hmem
  have hlen := congrArg List.length hkk
  simp only [List.length_append] at hlen
  have : 1 ≤ ext.length := by
    cases ext
    · exact absurd rfl hne
    · simp
  omega

theorem alookup_skip_exts_any {β : Type} {newl oldl : List (Path × β)} {k base : Path}
    (hk : k.length < base.length)
    (hext : ∀ kk ∈ keysOf newl, ∃ ext, kk = base ++ ext) :
    alookup (newl ++ oldl) k = alookup oldl k := by
  apply alookup_append_of_not_mem
  intro hmem
  obtain ⟨ext, hkk⟩ := hext k hmem
  have hlen := congrArg List.length hkk
  simp only [List.length_append] at hlen
  omega

theorem TagsOk_prepend {cfg : Cfg} {newl oldl : List (Path × Str)} {rel : List Str}
    (hlong : ∀ kk ∈ keysOf newl, cfg.rootPath.length + rel.length < kk.length)
    (h : TagsOk cfg oldl rel) : TagsOk cfg (newl ++ oldl) rel := by
  intro i h1 h2
  obtain ⟨v, hv, hvne, hvid⟩ := h i h1 h2
  refine ⟨v, ?_, hvne, hvid⟩
  rw [← hv]
  apply alookup_append_of_not_mem
  intro hm
  have hlg := hlong _ hm
  simp only [List.length_append, List.length_take] at hlg
  omega

theorem assignStep_root (cfg : Cfg) (st : St) :
    assignStep cfg cfg.rootPath st = { st with ctrMap := (cfg.rootPath, 1) :: st.ctrMap } := by
  rw [assignStep]
  simp

theorem assignStep_nonroot {cfg : Cfg} {curPath : Path} (st : St) {k : Nat} {pid : Str}
    (hroot : curPath ≠ cfg.rootPath)
    (hpid : alookup st.idMap curPath.dropLast = some pid)
    (hk : alookup st.ctrMap curPath.dropLast = some k) :
    assignStep cfg curPath st =
      { st with idMap := (curPath, childId pid k) :: st.idMap,
                ctrMap := (curPath, 1) :: (curPath.dropLast, k + 1) :: st.ctrMap } := by
  rw [assignStep]
  simp only [aget, hpid, hk, Option.getD, if_neg hroot]

end Tagwork

namespace Tagwork

/-! ## The master induction over the walk -/

theorem runForest_master : ∀ (n : Nat) (ts : List FSTree) (cfg : Cfg) (p : Path)
    (st st' : St) (pid : Str) (i : Nat), sizeOf ts ≤ n →
    runForest cfg (cfg.rootPath ++ p) ts st = .ok st' →
    alookup st.idMap (cfg.rootPath ++ p) = some pid →
    alookup st.ctrMap (cfg.rootPath ++ p) = some i →
    TagsOk cfg st.idMap p → IdOk cfg st → GoodCreated cfg st →
    st'.idMap = (specForest (cfg.rootPath ++ p) pid i ts).reverse ++ st.idMap ∧
    (∃ junk, st'.ctrMap = junk ++ st.ctrMap ∧
      ∀ kk ∈ keysOf junk, ∃ ext, kk = (cfg.rootPath ++ p) ++ ext) ∧
    alookup st'.ctrMap (cfg.rootPath ++ p) = some (i + ts.length) ∧
    IdOk cfg st' ∧ GoodCreated cfg st' := by
  intro n
  induction n using Nat.strong_induction_on with
  | _ n IH =>
    intro ts cfg p st st' pid i hsz hrun hpid hctr hT hI hG
    match ts with
    | [] =>
      obtain rfl : st = st' := by simpa [runForest] using hrun
      refine ⟨by simp [specForest], ⟨[], rfl, by intro kk hm; simp [keysOf] at hm⟩,
        by simpa using hctr, hI, hG⟩
    | t :: ts' =>
      obtain ⟨nm, subs, files⟩ := t
      have hsubs_lt : sizeOf subs < n := by
        have h1 := sizeOf_subs_lt nm subs files
        have h2 := sizeOf_fstree_cons (FSTree.dir nm subs files) ts'
        omega
      have hts_lt : sizeOf ts' < n := by
        have h2 := sizeOf_fstree_cons (FSTree.dir nm subs files) ts'
        omega
      have hq2 : (cfg.rootPath ++ p) ++ [nm] = cfg.rootPath ++ (p ++ [nm]) := by simp
      have hqroot : (cfg.rootPath ++ p) ++ [nm] ≠ cfg.rootPath := by
        apply ne_of_len
        simp only [List.length_append, List.length_cons, List.length_nil]
        omega
      have hdrop : ((cfg.rootPath ++ p) ++ [nm]).dropLast = cfg.rootPath ++ p :=
        List.dropLast_concat
      have hpidstr : idStr pid = true := (hI _ (alookup_mem hpid)).1
      have hassign := @assignStep_nonroot cfg ((cfg.rootPath ++ p) ++ [nm]) st i pid
        hqroot (by rw [hdrop]; exact hpid) (by rw [hdrop]; exact hctr)
      rw [runForest] at hrun
      simp only [FSTree.dname] at hrun
      match hrt : runTree cfg ((cfg.rootPath ++ p) ++ [nm]) (FSTree.dir nm subs files) st with
      | .error e =>
        rw [hrt] at hrun
        exact absurd hrun (by simp)
      | .ok st3 =>
        have hrun2 : runForest cfg (cfg.rootPath ++ p) ts' st3 = .ok st' := by
          rw [hrt] at hrun
          exact hrun
        rw [runTree, hassign] at hrt
        match hpf : processFiles cfg ((cfg.rootPath ++ p) ++ [nm])
            { st with
              idMap := ((cfg.rootPath ++ p) ++ [nm], childId pid i) :: st.idMap,
              ctrMap := ((cfg.rootPath ++ p) ++ [nm], 1) ::
                (((cfg.rootPath ++ p) ++ [nm]).dropLast, i + 1) :: st.ctrMap } files with
        | .error e =>
          rw [hpf] at hrt
          exact absurd hrt (by simp)
        | .ok st2 =>
          have hrt2 : runForest cfg ((cfg.rootPath ++ p) ++ [nm]) subs st2 = .ok st3 := by
            rw [hpf] at hrt
            exact hrt
          obtain ⟨hm1, hm2, hm3⟩ := processFiles_ok files hpf
          rw [hdrop] at hm2
          have hdropq : (((cfg.rootPath ++ p) ++ [nm]).drop cfg.rootPath.length)
              = p ++ [nm] := by
            rw [hq2]
            exact List.drop_left _ _
          have hT1 : TagsOk cfg
              (((cfg.rootPath ++ p) ++ [nm], childId pid i) :: st.idMap) (p ++ [nm]) := by
            intro j hj1 hj2
            simp only [List.length_append, List.length_cons, List.length_nil] at hj2
            by_cases hje : j = p.length + 1
            · refine ⟨childId pid i, ?_, childId_ne_nil pid i, childId_idStr i hpidstr⟩
              have htake : (p ++ [nm]).take j = p ++ [nm] := by
                apply List.take_of_length_le
                simp
                omega
              rw [htake]
              show alookup (((cfg.rootPath ++ p) ++ [nm], childId pid i) :: st.idMap)
                (cfg.rootPath ++ (p ++ [nm])) = _
              rw [alookup, if_pos hq2.symm]
            · have hjle : j ≤ p.length := by omega
              have htake : (p ++ [nm]).take j = p.take j :=
                List.take_append_of_le_length hjle
              obtain ⟨v, hv, hvne, hvid⟩ := hT j hj1 hjle
              refine ⟨v, ?_, hvne, hvid⟩
              rw [htake]
              show alookup (((cfg.rootPath ++ p) ++ [nm], childId pid i) :: st.idMap)
                (cfg.rootPath ++ p.take j) = some v
              rw [alookup, if_neg ?_]
              · exact hv
              · apply ne_of_len
                simp only [List.length_append, List.length_take, List.length_cons,
                  List.length_nil]
                omega
          have hI1 : IdOk cfg
              { st with
                idMap := ((cfg.rootPath ++ p) ++ [nm], childId pid i) :: st.idMap,
                ctrMap := ((cfg.rootPath ++ p) ++ [nm], 1) ::
                  ((cfg.rootPath ++ p), i + 1) :: st.ctrMap } := by
            intro kv hm
            rcases List.mem_cons.mp hm with rfl | hm2'
            · exact ⟨childId_idStr i hpidstr, fun _ => childId_ne_nil pid i⟩
            · exact hI kv hm2'
          have hG2 : GoodCreated cfg st2 := by
            apply hm3
            · rw [hdropq]
              show TagsOk cfg
                (((cfg.rootPath ++ p) ++ [nm], childId pid i) :: st.idMap) (p ++ [nm])
              exact hT1
            · exact hG
          have hI2 : IdOk cfg st2 := by
            intro kv hm
            rw [hm1] at hm
            rcases List.mem_cons.mp hm with rfl | hm2'
            · exact ⟨childId_idStr i hpidstr, fun _ => childId_ne_nil pid i⟩
            · exact hI kv hm2'
          have hpid2 : alookup st2.idMap (cfg.rootPath ++ (p ++ [nm]))
              = some (childId pid i) := by
            rw [hm1]
            show alookup (((cfg.rootPath ++ p) ++ [nm], childId pid i) :: st.idMap)
              (cfg.rootPath ++ (p ++ [nm])) = _
            rw [alookup, if_pos hq2.symm]
          have hctr2 : alookup st2.ctrMap (cfg.rootPath ++ (p ++ [nm])) = some 1 := by
            rw [hm2]
            show alookup (((cfg.rootPath ++ p) ++ [nm], 1) ::
              ((cfg.rootPath ++ p), i + 1) :: st.ctrMap) (cfg.rootPath ++ (p ++ [nm])) = _
            rw [alookup, if_pos hq2.symm]
          have hT2 : TagsOk cfg st2.idMap (p ++ [nm]) := by
            rw [hm1]
            exact hT1
          have hrt2' : runForest cfg (cfg.rootPath ++ (p ++ [nm])) subs st2 = .ok st3 := by
            rw [← hq2]
            exact hrt2
          obtain ⟨k1, ⟨junk2, hj2, hj2k⟩, k3, k4, k5⟩ :=
            IH (sizeOf subs) hsubs_lt subs cfg (p ++ [nm]) st2 st3 (childId pid i) 1
              (le_refl _) hrt2' hpid2 hctr2 hT2 hI2 hG2
          have hkeysub : ∀ kk ∈ keysOf ((specForest (cfg.rootPath ++ (p ++ [nm]))
              (childId pid i) 1 subs).reverse),
              ∃ ext, ext ≠ [] ∧ kk = (cfg.rootPath ++ (p ++ [nm])) ++ ext := by
            intro kk hm
            rw [keysOf_reverse, List.mem_reverse] at hm
            exact specForest_keys (sizeOf subs) subs _ _ 1 (le_refl _) kk hm
          have hpid3 : alookup st3.idMap (cfg.rootPath ++ p) = some pid := by
            rw [k1, hm1]
            rw [alookup_skip_exts ?_ hkeysub]
            · show alookup (((cfg.rootPath ++ p) ++ [nm], childId pid i) :: st.idMap)
                (cfg.rootPath ++ p) = some pid
              rw [alookup, if_neg ?_]
              · exact hpid
              · apply ne_of_len
                simp only [List.length_append, List.length_cons, List.length_nil]
                omega
            · simp only [List.length_append, List.length_cons, List.length_nil]
              omega
          have hctr3 : alookup st3.ctrMap (cfg.rootPath ++ p) = some (i + 1) := by
            rw [hj2, hm2]
            rw [alookup_skip_exts_any ?_ hj2k]
            · show alookup (((cfg.rootPath ++ p) ++ [nm], 1) ::
                ((cfg.rootPath ++ p), i + 1) :: st.ctrMap) (cfg.rootPath ++ p) = some (i + 1)
              rw [alookup, if_neg ?_, alookup, if_pos rfl]
              apply ne_of_len
              simp only [List.length_append, List.length_cons, List.length_nil]
              omega
            · simp only [List.length_append, List.length_cons, List.length_nil]
              omega
          have hT3 : TagsOk cfg st3.idMap p := by
            rw [k1, hm1]
            apply TagsOk_prepend ?_ ?_
            · intro kk hm
              obtain ⟨ext, hne, hkk⟩ := hkeysub kk hm
              rw [hkk]
              simp only [List.length_append]
              have : 1 ≤ ext.length := by
                cases ext
                · exact absurd rfl hne
                · simp
              omega
            · rw [show ((((cfg.rootPath ++ p) ++ [nm], childId pid i)) :: st.idMap)
                  = [(((cfg.rootPath ++ p) ++ [nm], childId pid i))] ++ st.idMap from rfl]
              apply TagsOk_prepend ?_ hT
              intro kk hm
              simp only [keysOf, List.map_cons, List.map_nil, List.mem_singleton] at hm
              rw [hm]
              simp only [List.length_append, List.length_cons, List.length_nil]
              omega
          obtain ⟨l1, ⟨junk3, hj3, hj3k⟩, l3, l4, l5⟩ :=
            IH (sizeOf ts') hts_lt ts' cfg p st3 st' pid (i + 1) (le_refl _)
              hrun2 hpid3 hctr3 hT3 k4 k5
          refine ⟨?_, ?_, ?_, l4, l5⟩
          · rw [l1, k1, hm1]
            rw [specForest]
            simp only [FSTree.dname, specTree]
            rw [List.reverse_append, List.reverse_cons]
            simp [hq2]
          · refine ⟨junk3 ++ (junk2 ++ [((cfg.rootPath ++ p) ++ [nm], 1),
              ((cfg.rootPath ++ p), i + 1)]), ?_, ?_⟩
            · rw [hj3, hj2, hm2]
              simp
            · intro kk hm
              simp only [keysOf_append, List.mem_append] at hm
              rcases hm with hm | hm
              · exact hj3k kk hm
              · rcases (by simpa [keysOf_append, List.mem_append] using hm :
                  kk ∈ keysOf junk2 ∨ kk ∈ keysOf
                    [((cfg.rootPath ++ p) ++ [nm], 1), ((cfg.rootPath ++ p), i + 1)]) with
                  hm2' | hm2'
                · obtain ⟨ext, hext⟩ := hj2k kk hm2'
                  refine ⟨nm :: ext, ?_⟩
                  rw [hext]
                  simp
                · simp only [keysOf, List.map_cons, List.map_nil, List.mem_cons,
                    List.not_mem_nil, or_false] at hm2'
                  rcases hm2' with rfl | rfl
                  · exact ⟨[nm], rfl⟩
                  · exact ⟨[], by simp⟩
          · have hlen : (i + 1) + ts'.length
                = i + (FSTree.dir nm subs files :: ts').length := by
              simp only [List.length_cons]
              omega
            rw [← hlen]
            exact l3

end Tagwork

namespace Tagwork

/-! ## What a completed run leaves behind -/

theorem runAll_ok {parent : Path} {t : FSTree} {st' : St}
    (h : runAll parent t = .ok st') :
    st'.idMap = specIdMap (mkCfg parent t) t ∧
    IdOk (mkCfg parent t) st' ∧ GoodCreated (mkCfg parent t) st' := by
  obtain ⟨nm, subs, files⟩ := t
  rw [runAll, runTree] at h
  rw [assignStep_root] at h
  match hpf : processFiles (mkCfg parent (FSTree.dir nm subs files))
      (mkCfg parent (FSTree.dir nm subs files)).rootPath
      { initSt (mkCfg parent (FSTree.dir nm subs files)) with
        ctrMap := ((mkCfg parent (FSTree.dir nm subs files)).rootPath, 1) ::
          (initSt (mkCfg parent (FSTree.dir nm subs files))).ctrMap } files with
  | .error e => rw [hpf] at h; exact absurd h (by simp)
  | .ok st2 =>
    rw [hpf] at h
    obtain ⟨hm1, hm2, hm3⟩ := processFiles_ok files hpf
    have hTroot : ∀ (m : List (Path × Str)), TagsOk (mkCfg parent (FSTree.dir nm subs files)) m
        (((mkCfg parent (FSTree.dir nm subs files)).rootPath).drop
          ((mkCfg parent (FSTree.dir nm subs files)).rootPath).length) := by
      intro m i h1 h2
      simp only [List.drop_length, List.length_nil] at h2
      omega
    have hG2 : GoodCreated (mkCfg parent (FSTree.dir nm subs files)) st2 := by
      apply hm3 (hTroot _)
      intro q hq
      simp only [initSt, List.mem_singleton] at hq
      exact ⟨[], by rw [hq]; simp, by intro s hs; simp at hs⟩
    have hI2 : IdOk (mkCfg parent (FSTree.dir nm subs files)) st2 := by
      intro kv hm
      rw [hm1] at hm
      simp only [initSt, List.mem_singleton] at hm
      rw [hm]
      exact ⟨rfl, fun hk => absurd rfl hk⟩
    have hrf : runForest (mkCfg parent (FSTree.dir nm subs files))
        ((mkCfg parent (FSTree.dir nm subs files)).rootPath ++ []) subs st2 = .ok st' := by
      simpa using h
    have hpid2 : alookup st2.idMap ((mkCfg parent (FSTree.dir nm subs files)).rootPath ++ [])
        = some [] := by
      rw [hm1]
      simp [initSt, alookup]
    have hctr2 : alookup st2.ctrMap ((mkCfg parent (FSTree.dir nm subs files)).rootPath ++ [])
        = some 1 := by
      rw [hm2]
      simp [alookup]
    have hT2 : TagsOk (mkCfg parent (FSTree.dir nm subs files)) st2.idMap [] := by
      intro i h1 h2
      simp only [List.length_nil] at h2
      omega
    obtain ⟨k1, _, _, k4, k5⟩ := runForest_master (sizeOf subs) subs
      (mkCfg parent (FSTree.dir nm subs files)) [] st2 st' [] 1 (le_refl _)
      hrf hpid2 hctr2 hT2 hI2 hG2
    refine ⟨?_, k4, k5⟩
    rw [k1, hm1]
    simp [specIdMap, initSt, FSTree.subdirs]

end Tagwork

namespace Tagwork

/-! ## Identifiers follow sibling positions; positions are distinct -/

theorem specForest_vals_pos : ∀ (n : Nat) (ts : List FSTree) (p : Path) (l : List Nat)
    (i : Nat), sizeOf ts ≤ n →
    valsOf (specForest p (encodePos l) i ts) = (posForest l i ts).map encodePos := by
  intro n
  induction n using Nat.strong_induction_on with
  | _ n IH =>
    intro ts p l i hsz
    match ts with
    | [] => rfl
    | t :: ts' =>
      obtain ⟨nm, subs, files⟩ := t
      have hss : sizeOf subs < n := by
        have h1 := sizeOf_subs_lt nm subs files
        have h2 := sizeOf_fstree_cons (FSTree.dir nm subs files) ts'
        omega
      have hts : sizeOf ts' < n := by
        have h2 := sizeOf_fstree_cons (FSTree.dir nm subs files) ts'
        omega
      rw [specForest, posForest]
      simp only [FSTree.dname]
      rw [specTree, posTree]
      rw [← encodePos_append_single]
      have e1 := IH (sizeOf subs) hss subs (p ++ [nm]) (l ++ [i]) 1 (le_refl _)
      have e2 := IH (sizeOf ts') hts ts' p l (i + 1) (le_refl _)
      simp only [valsOf, List.map_append, List.map_cons] at e1 e2 ⊢
      rw [e1, e2]

theorem mem_posForest : ∀ (n : Nat) (ts : List FSTree) (l : List Nat) (i : Nat),
    sizeOf ts ≤ n → ∀ q ∈ posForest l i ts, ∃ j rest, i ≤ j ∧ q = l ++ j :: rest := by
  intro n
  induction n using Nat.strong_induction_on with
  | _ n IH =>
    intro ts l i hsz q hm
    match ts with
    | [] => simp [posForest] at hm
    | t :: ts' =>
      obtain ⟨nm, subs, files⟩ := t
      have hss : sizeOf subs < n := by
        have h1 := sizeOf_subs_lt nm subs files
        have h2 := sizeOf_fstree_cons (FSTree.dir nm subs files) ts'
        omega
      have hts : sizeOf ts' < n := by
        have h2 := sizeOf_fstree_cons (FSTree.dir nm subs files) ts'
        omega
      rw [posForest, posTree] at hm
      rcases List.mem_append.mp hm with hm1 | hm2
      · rcases List.mem_cons.mp hm1 with rfl | hm1b
        · exact ⟨i, [], le_refl _, rfl⟩
        · obtain ⟨j2, rest2, hj2, heq⟩ :=
            IH (sizeOf subs) hss subs (l ++ [i]) 1 (le_refl _) q hm1b
          exact ⟨i, j2 :: rest2, le_refl _, by rw [heq]; simp⟩
      · obtain ⟨j2, rest2, hj2, heq⟩ := IH (sizeOf ts') hts ts' l (i + 1) (le_refl _) q hm2
        exact ⟨j2, rest2, by omega, heq⟩

theorem posForest_nodup : ∀ (n : Nat) (ts : List FSTree) (l : List Nat) (i : Nat),
    sizeOf ts ≤ n → (posForest l i ts).Nodup := by
  intro n
  induction n using Nat.strong_induction_on with
  | _ n IH =>
    intro ts l i hsz
    match ts with
    | [] => simp [posForest]
    | t :: ts' =>
      obtain ⟨nm, subs, files⟩ := t
      have hss : sizeOf subs < n := by
        have h1 := sizeOf_subs_lt nm subs files
        have h2 := sizeOf_fstree_cons (FSTree.dir nm subs files) ts'
        omega
      have hts : sizeOf ts' < n := by
        have h2 := sizeOf_fstree_cons (FSTree.dir nm subs files) ts'
        omega
      rw [posForest, posTree, List.nodup_append]
      refine ⟨?_, IH (sizeOf ts') hts ts' l (i + 1) (le_refl _), ?_⟩
      · rw [List.nodup_cons]
        refine ⟨?_, IH (sizeOf subs) hss subs (l ++ [i]) 1 (le_refl _)⟩
        intro hmem
        obtain ⟨j2, rest2, _, heq⟩ :=
          mem_posForest (sizeOf subs) subs (l ++ [i]) 1 (le_refl _) (l ++ [i]) hmem
        have hlen := congrArg List.length heq
        simp at hlen
      · intro q hq1 hq2
        have hq1b : ∃ rest, q = l ++ i :: rest := by
          rcases List.mem_cons.mp hq1 with rfl | hq1c
          · exact ⟨[], rfl⟩
          · obtain ⟨j2, rest2, _, heq⟩ :=
              mem_posForest (sizeOf subs) subs (l ++ [i]) 1 (le_refl _) q hq1c
            exact ⟨j2 :: rest2, by rw [heq]; simp⟩
        obtain ⟨rest, rfl⟩ := hq1b
        obtain ⟨j2, rest2, hj2, heq⟩ :=
          mem_posForest (sizeOf ts') ts' l (i + 1) (le_refl _) (l ++ i :: rest) hq2
        have hd : i :: rest = j2 :: rest2 := by
          have hc := congrArg (List.drop l.length) heq
          rwa [List.drop_left, List.drop_left] at hc
        injection hd with hd1 hd2
        omega

theorem specForest_keys_shape : ∀ (n : Nat) (ts : List FSTree) (p : Path) (pid : Str)
    (i : Nat), sizeOf ts ≤ n → ∀ kk ∈ keysOf (specForest p pid i ts),
    ∃ nm rest, nm ∈ ts.map FSTree.dname ∧ kk = p ++ nm :: rest := by
  intro n
  induction n using Nat.strong_induction_on with
  | _ n IH =>
    intro ts p pid i hsz kk hm
    match ts with
    | [] => simp [specForest, keysOf] at hm
    | t :: ts' =>
      obtain ⟨nm, subs, files⟩ := t
      have hss : sizeOf subs < n := by
        have h1 := sizeOf_subs_lt nm subs files
        have h2 := sizeOf_fstree_cons (FSTree.dir nm subs files) ts'
        omega
      have hts : sizeOf ts' < n := by
        have h2 := sizeOf_fstree_cons (FSTree.dir nm subs files) ts'
        omega
      rw [specForest, keysOf_append] at hm
      simp only [FSTree.dname] at hm
      rcases List.mem_append.mp hm with hm1 | hm2
      · rw [specTree, keysOf_cons] at hm1
        rcases List.mem_cons.mp hm1 with rfl | hm1b
        · exact ⟨nm, [], by simp [FSTree.dname], by simp⟩
        · obtain ⟨ext, hne, hext⟩ := specForest_keys (sizeOf subs) subs (p ++ [nm])
            (childId pid i) 1 (le_refl _) kk hm1b
          exact ⟨nm, ext, by simp [FSTree.dname], by rw [hext]; simp⟩
      · obtain ⟨nm2, rest2, hmem, heq⟩ := IH (sizeOf ts') hts ts' p pid (i + 1)
          (le_refl _) kk hm2
        refine ⟨nm2, rest2, ?_, heq⟩
        rw [List.map_cons]
        exact List.mem_cons_of_mem _ hmem

theorem nodupStrs_parts {s : Str} {rest : List Str} (h : nodupStrs (s :: rest) = true) :
    (∀ x ∈ rest, x ≠ s) ∧ nodupStrs rest = true := by
  rw [nodupStrs] at h
  simp only [Bool.and_eq_true, List.all_eq_true] at h
  refine ⟨?_, h.2⟩
  intro x hx he
  have hb := h.1 x hx
  rw [if_pos he] at hb
  exact absurd hb (by simp)

theorem specForest_keys_nodup : ∀ (n : Nat) (ts : List FSTree) (p : Path) (pid : Str)
    (i : Nat), sizeOf ts ≤ n → uniqForest ts = true →
    nodupStrs (ts.map FSTree.dname) = true →
    (keysOf (specForest p pid i ts)).Nodup := by
  intro n
  induction n using Nat.strong_induction_on with
  | _ n IH =>
    intro ts p pid i hsz hu hnames
    match ts with
    | [] => simp [specForest, keysOf]
    | t :: ts' =>
      obtain ⟨nm, subs, files⟩ := t
      have hss : sizeOf subs < n := by
        have h1 := sizeOf_subs_lt nm subs files
        have h2 := sizeOf_fstree_cons (FSTree.dir nm subs files) ts'
        omega
      have hts : sizeOf ts' < n := by
        have h2 := sizeOf_fstree_cons (FSTree.dir nm subs files) ts'
        omega
      rw [uniqForest, uniqTree] at hu
      simp only [Bool.and_eq_true] at hu
      obtain ⟨⟨hnsub, husub⟩, hu2⟩ := hu
      simp only [List.map_cons, FSTree.dname] at hnames
      obtain ⟨hother, hnames2⟩ := nodupStrs_parts hnames
      rw [specForest, keysOf_append]
      simp only [FSTree.dname]
      rw [List.nodup_append]
      refine ⟨?_, IH (sizeOf ts') hts ts' p pid (i + 1) (le_refl _) hu2 hnames2, ?_⟩
      · rw [specTree, keysOf_cons, List.nodup_cons]
        refine ⟨?_, IH (sizeOf subs) hss subs (p ++ [nm]) (childId pid i) 1
          (le_refl _) husub hnsub⟩
        intro hmem
        obtain ⟨ext, hne, hext⟩ := specForest_keys (sizeOf subs) subs (p ++ [nm])
          (childId pid i) 1 (le_refl _) _ hmem
        have hlen := congrArg List.length hext
        simp only [List.length_append] at hlen
        have h1 : 1 ≤ ext.length := by
          cases ext
          · exact absurd rfl hne
          · simp
        omega
      · intro q hq1 hq2
        have hq1b : ∃ rest, q = p ++ nm :: rest := by
          rw [specTree, keysOf_cons] at hq1
          rcases List.mem_cons.mp hq1 with rfl | hq1c
          · exact ⟨[], by simp⟩
          · obtain ⟨ext, hne, hext⟩ := specForest_keys (sizeOf subs) subs (p ++ [nm])
              (childId pid i) 1 (le_refl _) q hq1c
            exact ⟨ext, by rw [hext]; simp⟩
        obtain ⟨rest, rfl⟩ := hq1b
        obtain ⟨nm2, rest2, hmem2, heq2⟩ := specForest_keys_shape (sizeOf ts') ts' p pid
          (i + 1) (le_refl _) _ hq2
        have hd : nm :: rest = nm2 :: rest2 := by
          have hc := congrArg (List.drop p.length) heq2
          rwa [List.drop_left, List.drop_left] at hc
        injection hd with hd1 hd2
        exact hother nm2 hmem2 hd1.symm

theorem specIdMap_keys_nodup {cfg : Cfg} {t : FSTree} (hu : uniqTree t = true) :
    (keysOf (specIdMap cfg t)).Nodup := by
  obtain ⟨nm, subs, files⟩ := t
  rw [uniqTree] at hu
  simp only [Bool.and_eq_true] at hu
  rw [specIdMap]
  simp only [FSTree.subdirs]
  rw [keysOf_append, keysOf_reverse, List.nodup_append]
  refine ⟨List.nodup_reverse.mpr (specForest_keys_nodup (sizeOf subs) subs cfg.rootPath
    [] 1 (le_refl _) hu.2 hu.1), ?_, ?_⟩
  · show ([cfg.rootPath] : List Path).Nodup
    simp
  · intro q hq1 hq2
    rw [List.mem_reverse] at hq1
    obtain ⟨ext, hne, hext⟩ := specForest_keys (sizeOf subs) subs cfg.rootPath [] 1
      (le_refl _) q hq1
    have hq2b : q = cfg.rootPath := by simpa [keysOf] using hq2
    rw [hq2b] at hext
    have hlen := congrArg List.length hext
    simp only [List.length_append] at hlen
    have h1 : 1 ≤ ext.length := by
      cases ext
      · exact absurd rfl hne
      · simp
    omega

theorem specIdMap_vals_nodup (cfg : Cfg) (t : FSTree) :
    (valsOf (specIdMap cfg t)).Nodup := by
  obtain ⟨nm, subs, files⟩ := t
  rw [specIdMap]
  simp only [FSTree.subdirs]
  have hsplit : valsOf ((specForest cfg.rootPath [] 1 subs).reverse
      ++ [(cfg.rootPath, ([] : Str))])
      = (valsOf (specForest cfg.rootPath [] 1 subs)).reverse ++ [([] : Str)] := by
    simp [valsOf]
  rw [hsplit, List.nodup_append]
  have hpos : valsOf (specForest cfg.rootPath [] 1 subs)
      = (posForest [] 1 subs).map encodePos := by
    rw [show ([] : Str) = encodePos [] from rfl]
    exact specForest_vals_pos (sizeOf subs) subs cfg.rootPath [] 1 (le_refl _)
  refine ⟨?_, by simp, ?_⟩
  · rw [List.nodup_reverse, hpos]
    exact List.Nodup.map (fun a b hab => encodePos_injective hab)
      (posForest_nodup (sizeOf subs) subs [] 1 (le_refl _))
  · intro v hv1 hv2
    rw [List.mem_reverse] at hv1
    obtain ⟨hvid, hvne⟩ := specForest_vals (sizeOf subs) subs cfg.rootPath [] 1
      (le_refl _) rfl v hv1
    have hv2b : v = [] := by simpa using hv2
    exact hvne hv2b

end Tagwork

namespace Tagwork

/-! ## Locating directories of the tree in the expected identifier table -/

theorem findDir_mem : ∀ {ts : List FSTree} {nm : Str} {c : FSTree},
    findDir nm ts = some c → c ∈ ts := by
  intro ts
  induction ts with
  | nil => intro nm c h; simp [findDir] at h
  | cons t ts' ih =>
    intro nm c h
    rw [findDir] at h
    split at h
    · injection h with h2
      rw [← h2]
      exact List.mem_cons_self t ts'
    · exact List.mem_cons_of_mem _ (ih h)

theorem sizeOf_lt_of_mem_fstree : ∀ {ts : List FSTree} {c : FSTree},
    c ∈ ts → sizeOf c < sizeOf ts := by
  intro ts
  induction ts with
  | nil => intro c h; simp at h
  | cons t ts' ih =>
    intro c h
    rcases List.mem_cons.mp h with rfl | h2
    · rw [sizeOf_fstree_cons]; omega
    · have := ih h2
      rw [sizeOf_fstree_cons]
      omega

theorem specForest_child_mem : ∀ (ts : List FSTree) (p : Path) (pid : Str) (i j : Nat)
    (hj : j < ts.length),
    (p ++ [(ts.get ⟨j, hj⟩).dname], childId pid (i + j)) ∈ specForest p pid i ts := by
  intro ts
  induction ts with
  | nil => intro p pid i j hj; simp at hj
  | cons t ts' ih =>
    intro p pid i j hj
    match j with
    | 0 =>
      obtain ⟨nm, subs, files⟩ := t
      rw [specForest]
      apply List.mem_append_left
      rw [specTree]
      show ((p ++ [nm], childId pid (i + 0)) : Path × Str) ∈ _
      rw [show i + 0 = i from rfl]
      exact List.mem_cons_self _ _
    | j' + 1 =>
      rw [specForest]
      apply List.mem_append_right
      have hb := ih p pid (i + 1) j' (by simpa using Nat.lt_of_succ_lt_succ hj)
      have hsh : i + 1 + j' = i + (j' + 1) := by omega
      rw [hsh] at hb
      exact hb

theorem findDir_spec_sub : ∀ (ts : List FSTree) (p : Path) (pid : Str) (i : Nat)
    (nm : Str) (c : FSTree), findDir nm ts = some c →
    ∃ k, ∀ x ∈ specTree (p ++ [nm]) (childId pid k) c, x ∈ specForest p pid i ts := by
  intro ts
  induction ts with
  | nil => intro p pid i nm c h; simp [findDir] at h
  | cons t ts' ih =>
    intro p pid i nm c h
    rw [findDir] at h
    by_cases hd : t.dname = nm
    · rw [if_pos hd] at h
      injection h with h2
      refine ⟨i, fun x hx => ?_⟩
      rw [specForest]
      apply List.mem_append_left
      rw [hd, h2]
      exact hx
    · rw [if_neg hd] at h
      obtain ⟨k, hk⟩ := ih p pid (i + 1) nm c h
      refine ⟨k, fun x hx => ?_⟩
      rw [specForest]
      exact List.mem_append_right _ (hk x hx)

theorem specTree_mem : ∀ (n : Nat) (t : FSTree) (q : Path) (qid : Str) (rel : List Str)
    (d : FSTree), sizeOf t ≤ n → subtreeAt t rel = some d →
    ∃ did, (q ++ rel, did) ∈ specTree q qid t ∧
      ∀ j (hj : j < d.subdirs.length),
        (q ++ rel ++ [(d.subdirs.get ⟨j, hj⟩).dname], childId did (j + 1))
          ∈ specTree q qid t := by
  intro n
  induction n using Nat.strong_induction_on with
  | _ n IH =>
    intro t q qid rel d hsz hsub
    match rel with
    | [] =>
      obtain rfl : t = d := by simpa [subtreeAt] using hsub
      refine ⟨qid, ?_, ?_⟩
      · obtain ⟨nm, subs, files⟩ := t
        rw [specTree]
        simp
      · intro j hj
        obtain ⟨nm, subs, files⟩ := t
        rw [specTree]
        apply List.mem_cons_of_mem
        have hb := specForest_child_mem subs q qid 1 j
          (by simpa [FSTree.subdirs] using hj)
        have hsh : 1 + j = j + 1 := by omega
        rw [hsh] at hb
        simpa [FSTree.subdirs] using hb
    | nm :: rest =>
      obtain ⟨nm0, subs, files⟩ := t
      rw [subtreeAt] at hsub
      simp only [FSTree.subdirs] at hsub
      obtain ⟨c, hfd, hsc⟩ := Option.bind_eq_some.mp hsub
      obtain ⟨k, hincl⟩ := findDir_spec_sub subs q qid 1 nm c hfd
      have hcsz : sizeOf c < n := by
        have h1 := sizeOf_lt_of_mem_fstree (findDir_mem hfd)
        have h2 := sizeOf_subs_lt nm0 subs files
        omega
      obtain ⟨did, hdm, hch⟩ := IH (sizeOf c) hcsz c (q ++ [nm]) (childId qid k) rest d
        (le_refl _) hsc
      refine ⟨did, ?_, ?_⟩
      · rw [specTree]
        apply List.mem_cons_of_mem
        have hb := hincl _ hdm
        rwa [show (q ++ [nm]) ++ rest = q ++ nm :: rest by simp] at hb
      · intro j hj
        rw [specTree]
        apply List.mem_cons_of_mem
        have hb := hincl _ (hch j hj)
        rwa [show (q ++ [nm]) ++ rest ++ [(d.subdirs.get ⟨j, hj⟩).dname]
          = q ++ nm :: rest ++ [(d.subdirs.get ⟨j, hj⟩).dname] by simp] at hb

theorem mem_specIdMap_iff (cfg : Cfg) (t : FSTree) (x : Path × Str) :
    x ∈ specIdMap cfg t ↔ x ∈ specTree cfg.rootPath [] t := by
  obtain ⟨nm, subs, files⟩ := t
  rw [specIdMap, specTree]
  simp only [FSTree.subdirs]
  simp [List.mem_append, List.mem_reverse, or_comm]

end Tagwork

namespace Tagwork

/-! ## Shape of a serialised document's first characters -/

theorem serElem_head_tag (e : Elem) : ∃ rest, serElem e = '<' :: e.tag ++ rest := by
  obtain ⟨tag, attrs, text, children, tail⟩ := e
  match text, children with
  | none, [] =>
    exact ⟨serAttrs attrs ++ str " />", by simp [serElem, Elem.tag]⟩
  | some tx, cs =>
    exact ⟨serAttrs attrs ++ ('>' :: serOptText (some tx) ++ serChildren cs
      ++ ('<' :: '/' :: tag ++ ['>'])), by simp [serElem, Elem.tag]⟩
  | none, d :: ds =>
    exact ⟨serAttrs attrs ++ ('>' :: serOptText none ++ serChildren (d :: ds)
      ++ ('<' :: '/' :: tag ++ ['>'])), by simp [serElem, Elem.tag]⟩

theorem computeOutputDir_spec (cfg : Cfg) (idMap : List (Path × Str)) (rel : List Str)
    (ids : List Str) (fname : Str) (hlen : rel.length = ids.length)
    (hids : ∀ i (hi : i < rel.length) (hv : i < ids.length),
      alookup idMap (cfg.rootPath ++ rel.take (i + 1)) = some (ids.get ⟨i, hv⟩)) :
    computeOutputDir cfg idMap rel ++ [fname]
      = specOutputPath cfg.outRoot rel ids fname := by
  match rel, ids, hlen with
  | [], [], _ => simp [computeOutputDir, specOutputPath, specTaggedSegs]
  | p :: rel', ids, hlen =>
    rw [computeOutputDir, specOutputPath,
      tagLoop_spec (p :: rel') ids cfg.rootPath idMap hlen hids]

end Tagwork

namespace Tagwork

/-! ## The claims -/

/-- C1: the spec says a file whose extension is not `.zwo`/`.xml` is ignored
entirely — never written and never counted.  The run over `T1` refutes this:
`b.txt` has an unrecognised extension, yet a file of that name is written into
the output tree (with the previous file's patched content) and the final
summary counts 2 files. -/
theorem claim_C1 :
    recognizedExt (splitext (str "b.txt")).2 = false ∧
    (mainModel (some ([str "p1"], T1))).summary = some (0, 2) ∧
    Option.map (fun st => keysOf st.written) (mainModel (some ([str "p1"], T1))).finalSt
      = some [[str "p1", str "w1_tagged", str "b.txt"],
              [str "p1", str "w1_tagged", str "a.zwo"]] :=
  ⟨rfl, rfl, rfl⟩

/-- C2: the spec says no error aborts processing and the run always reaches the
final summary line.  The run over `T2` (a single unrecognised file, so
`updated_xml` is still unbound at the write) refutes this: the process dies
with status 1 and prints no summary. -/
theorem claim_C2 :
    (mainModel (some ([str "p2"], T2))).exitCode = 1 ∧
    (mainModel (some ([str "p2"], T2))).summary = none :=
  ⟨rfl, rfl⟩

/-- C3: patching any parseable document and re-parsing the result yields a
document whose name text is the original name text followed by a bracketed
group tag, whose description text is the origin label, `:  `, then the
original description text, with both elements present and every other part of
the root unchanged. -/
theorem claim_C3 (s gid fdir : Str) (t : Elem) (h : parseDoc s = some t) :
    ∃ out t2, update_workout_xml s gid fdir = Except.ok out ∧ parseDoc out = some t2 ∧
      textOf (findChild (str "name") t2.children)
        = textOf (findChild (str "name") t.children) ++ str " [" ++ gid ++ str "]" ∧
      textOf (findChild (str "description") t2.children)
        = fdir ++ str ":  " ++ textOf (findChild (str "description") t.children) ∧
      (findChild (str "name") t2.children).isSome = true ∧
      (findChild (str "description") t2.children).isSome = true ∧
      othersOf t2.children = othersOf t.children ∧
      t2.tag = t.tag ∧ t2.attrs = t.attrs ∧ t2.text = t.text := by
  obtain ⟨hwf, htl⟩ := parseDoc_wf h
  obtain ⟨p1, p2, p3, p4⟩ := patchTree_root t gid fdir
  refine ⟨tostring (patchTree t gid fdir), patchTree t gid fdir, ?_, ?_,
    patchTree_nameText t gid fdir, patchTree_descText t gid fdir,
    patchTree_name_isSome t gid fdir, patchTree_desc_isSome t gid fdir,
    patchTree_others t gid fdir, p1, p2, p3⟩
  · rw [update_workout_xml, h]
  · exact parseDoc_tostring (patchTree_wf gid fdir hwf) (p4.trans htl)

/-- Witness for C3 at the concrete document `S3`. -/
theorem claim_C3_witness :
    parseDoc S3 = some E3 ∧
    (∃ out t2, update_workout_xml S3 (str "7") (str "F") = Except.ok out ∧
      parseDoc out = some t2 ∧
      textOf (findChild (str "name") t2.children)
        = textOf (findChild (str "name") E3.children) ++ str " [" ++ str "7" ++ str "]" ∧
      textOf (findChild (str "description") t2.children)
        = str "F" ++ str ":  " ++ textOf (findChild (str "description") E3.children) ∧
      (findChild (str "name") t2.children).isSome = true ∧
      (findChild (str "description") t2.children).isSome = true ∧
      othersOf t2.children = othersOf E3.children ∧
      t2.tag = E3.tag ∧ t2.attrs = E3.attrs ∧ t2.text = E3.text) :=
  ⟨rfl, claim_C3 S3 (str "7") (str "F") E3 rfl⟩

/-- C4: a non-root directory's identifier is its parent's identifier, a dash
and the parent's current counter `k`, or the decimal form of `k` alone when
the parent's identifier is empty; the parent's counter becomes `k + 1`, the
directory's own counter becomes 1, and in particular a first-level child gets
`1` and its first child `1-1`. -/
theorem claim_C4 (cfg : Cfg) (cur : Path) (st : St) (pid : Str) (k : Nat)
    (hroot : cur ≠ cfg.rootPath) (hne : cur ≠ [])
    (hpid : aget st.idMap cur.dropLast [] = pid)
    (hk : aget st.ctrMap cur.dropLast 1 = k) :
    alookup (assignStep cfg cur st).idMap cur
        = some (if pid = [] then natStr k else pid ++ '-' :: natStr k) ∧
    alookup (assignStep cfg cur st).ctrMap cur.dropLast = some (k + 1) ∧
    alookup (assignStep cfg cur st).ctrMap cur = some 1 ∧
    strToNat (natStr k) = k ∧
    childId [] 1 = str "1" ∧ childId (str "1") 1 = str "1-1" := by
  have hdne : cur.dropLast ≠ cur := by
    apply ne_of_len
    rw [List.length_dropLast]
    match cur, hne with
    | c :: cs, _ =>
      simp only [List.length_cons]
      omega
  rw [assignStep]
  simp only [if_neg hroot]
  rw [hpid, hk]
  refine ⟨?_, ?_, ?_, strToNat_natStr k, by decide, by decide⟩
  · rw [alookup, if_pos rfl, childId]
  · rw [alookup, if_neg hdne, alookup, if_pos rfl]
  · rw [alookup, if_pos rfl]

/-- Witness for C4: the first child of the root of `CFG4` gets identifier `1`
and the counters are updated. -/
theorem claim_C4_witness :
    ([str "R4", str "D4"] : Path) ≠ CFG4.rootPath ∧
    ([str "R4", str "D4"] : Path) ≠ [] ∧
    aget ST4.idMap ([str "R4", str "D4"] : Path).dropLast [] = [] ∧
    aget ST4.ctrMap ([str "R4", str "D4"] : Path).dropLast 1 = 1 ∧
    (alookup (assignStep CFG4 [str "R4", str "D4"] ST4).idMap [str "R4", str "D4"]
        = some (if ([] : Str) = [] then natStr 1 else [] ++ '-' :: natStr 1) ∧
      alookup (assignStep CFG4 [str "R4", str "D4"] ST4).ctrMap
        ([str "R4", str "D4"] : Path).dropLast = some (1 + 1) ∧
      alookup (assignStep CFG4 [str "R4", str "D4"] ST4).ctrMap [str "R4", str "D4"]
        = some 1 ∧
      strToNat (natStr 1) = 1 ∧
      childId [] 1 = str "1" ∧ childId (str "1") 1 = str "1-1") :=
  ⟨by decide, by decide, rfl, rfl,
    claim_C4 CFG4 [str "R4", str "D4"] ST4 [] 1 (by decide) (by decide) rfl rfl⟩

/-- C5 (amended to runs that complete): after a completed run over a tree with
distinct sibling names, every directory holds exactly one identifier entry,
identifiers are unique, the root's identifier is the empty string, the `j`-th
subdirectory (1-based, in discovery order) of any reachable directory carries
its parent's identifier extended by `j`, and every created output directory is
made of segments whose bracketed tags are nonempty — so the root's empty
identifier never appears as a tag. -/
theorem claim_C5 (parent : Path) (t : FSTree) (st : St)
    (hu : uniqTree t = true) (hok : runAll parent t = Except.ok st) :
    (keysOf st.idMap).Nodup ∧ (valsOf st.idMap).Nodup ∧
    alookup st.idMap (mkCfg parent t).rootPath = some [] ∧
    (∀ rel d, subtreeAt t rel = some d →
      ∃ did, alookup st.idMap ((mkCfg parent t).rootPath ++ rel) = some did ∧
        ∀ j (hj : j < d.subdirs.length),
          alookup st.idMap ((mkCfg parent t).rootPath ++ rel
              ++ [(d.subdirs.get ⟨j, hj⟩).dname])
            = some (childId did (j + 1))) ∧
    (∀ q ∈ st.createdDirs, ∃ parts, q = (mkCfg parent t).outRoot ++ parts ∧
      ∀ s ∈ parts, ∃ nm tg, s = nm ++ str "_[" ++ tg ++ str "]" ∧ tg ≠ []) := by
  obtain ⟨hmap, hid, hgc⟩ := runAll_ok hok
  have hnd : (keysOf st.idMap).Nodup := by
    rw [hmap]
    exact specIdMap_keys_nodup hu
  refine ⟨hnd, ?_, ?_, ?_, ?_⟩
  · rw [hmap]
    exact specIdMap_vals_nodup _ t
  · apply alookup_of_mem_nodup ?_ hnd
    rw [hmap, mem_specIdMap_iff]
    obtain ⟨nm, subs, files⟩ := t
    rw [specTree]
    exact List.mem_cons_self _ _
  · intro rel d hsub
    obtain ⟨did, hdm, hch⟩ := specTree_mem (sizeOf t) t (mkCfg parent t).rootPath []
      rel d (le_refl _) hsub
    refine ⟨did, ?_, ?_⟩
    · apply alookup_of_mem_nodup ?_ hnd
      rw [hmap, mem_specIdMap_iff]
      exact hdm
    · intro j hj
      apply alookup_of_mem_nodup ?_ hnd
      rw [hmap, mem_specIdMap_iff]
      exact hch j hj
  · intro q hq
    obtain ⟨parts, hp1, hp2⟩ := hgc q hq
    refine ⟨parts, hp1, ?_⟩
    intro s hs
    obtain ⟨nm2, tg, hseq, htgne, _⟩ := hp2 s hs
    exact ⟨nm2, tg, hseq, htgne⟩

/-- C5 counterexample: the claim quantifies over all trees and the full run,
but the walk over `T5` dies on the root's `.txt` file before the subdirectory
`G1` — reachable from the root — is ever assigned an identifier. -/
theorem claim_C5_cex :
    subtreeAt T5 [str "G1"] = some (FSTree.dir (str "G1") [] []) ∧
    (mainModel (some ([str "p5"], T5))).summary = none ∧
    Option.map (fun st => alookup st.idMap [str "p5", str "w5", str "G1"])
      (mainModel (some ([str "p5"], T5))).finalSt = some none :=
  ⟨rfl, rfl, rfl⟩

/-- Witness for C5 at the completed run over `T5w`. -/
theorem claim_C5_witness :
    uniqTree T5w = true ∧ runAll [str "p5w"] T5w = Except.ok ST5w ∧
    ((keysOf ST5w.idMap).Nodup ∧ (valsOf ST5w.idMap).Nodup ∧
      alookup ST5w.idMap (mkCfg [str "p5w"] T5w).rootPath = some [] ∧
      (∀ rel d, subtreeAt T5w rel = some d →
        ∃ did, alookup ST5w.idMap ((mkCfg [str "p5w"] T5w).rootPath ++ rel)
            = some did ∧
          ∀ j (hj : j < d.subdirs.length),
            alookup ST5w.idMap ((mkCfg [str "p5w"] T5w).rootPath ++ rel
                ++ [(d.subdirs.get ⟨j, hj⟩).dname])
              = some (childId did (j + 1))) ∧
      (∀ q ∈ ST5w.createdDirs, ∃ parts, q = (mkCfg [str "p5w"] T5w).outRoot ++ parts ∧
        ∀ s ∈ parts, ∃ nm tg, s = nm ++ str "_[" ++ tg ++ str "]" ∧ tg ≠ [])) :=
  ⟨by decide, rfl, claim_C5 [str "p5w"] T5w ST5w (by decide) rfl⟩

/-- C6: a recognised file that reads, patches and writes successfully is
written to the path obtained by tagging every directory segment of its
root-relative path with the corresponding directory's identifier, under the
output root, keeping the filename unchanged; with no segments the output
directory is the output root itself. -/
theorem claim_C6 (cfg : Cfg) (cur : Path) (st : St) (f : FileEntry) (ids : List Str)
    (upd : Str)
    (hrec : recognizedExt (splitext f.fname).2 = true)
    (hread : f.readFails = false) (hwrite : f.writeFails = false)
    (hparse : update_workout_xml f.content (aget st.idMap cur [])
        (originLabel cur (splitext f.fname).1) = Except.ok upd)
    (hlen : (cur.drop cfg.rootPath.length).length = ids.length)
    (hids : ∀ i (hi : i < (cur.drop cfg.rootPath.length).length) (hv : i < ids.length),
      alookup st.idMap (cfg.rootPath ++ (cur.drop cfg.rootPath.length).take (i + 1))
        = some (ids.get ⟨i, hv⟩)) :
    ∃ st', processFile cfg cur st f = Except.ok st' ∧
      st'.written = (specOutputPath cfg.outRoot (cur.drop cfg.rootPath.length) ids
          f.fname, upd) :: st.written ∧
      st'.count = st.count + 1 ∧
      specOutputPath cfg.outRoot [] [] f.fname = cfg.outRoot ++ [f.fname] := by
  have hmain : processFile cfg cur st f = Except.ok
      { st with updatedXml := some upd,
                createdDirs := computeOutputDir cfg st.idMap
                  (cur.drop cfg.rootPath.length) :: st.createdDirs,
                written := (computeOutputDir cfg st.idMap (cur.drop cfg.rootPath.length)
                  ++ [f.fname], upd) :: st.written,
                count := st.count + 1 } := by
    rw [processFile]
    simp only [hrec, hread, if_true, Bool.false_eq_true, if_false]
    rw [hparse]
    simp only [writeStage, hwrite, Bool.false_eq_true, if_false]
  refine ⟨_, hmain, ?_, rfl, by simp [specOutputPath, specTaggedSegs]⟩
  show (computeOutputDir cfg st.idMap (cur.drop cfg.rootPath.length) ++ [f.fname], upd)
      :: st.written = _
  rw [computeOutputDir_spec cfg st.idMap (cur.drop cfg.rootPath.length) ids f.fname
    hlen hids]

/-- Witness for C6: the file `F6` in the tagged directory `G_[1]`. -/
theorem claim_C6_witness :
    recognizedExt (splitext F6.fname).2 = true ∧
    F6.readFails = false ∧ F6.writeFails = false ∧
    update_workout_xml F6.content (aget ST6.idMap CUR6 [])
      (originLabel CUR6 (splitext F6.fname).1) = Except.ok UPD6 ∧
    (CUR6.drop CFG6.rootPath.length).length = ([str "1"] : List Str).length ∧
    (∃ st', processFile CFG6 CUR6 ST6 F6 = Except.ok st' ∧
      st'.written = (specOutputPath CFG6.outRoot (CUR6.drop CFG6.rootPath.length)
          [str "1"] F6.fname, UPD6) :: ST6.written ∧
      st'.count = ST6.count + 1 ∧
      specOutputPath CFG6.outRoot [] [] F6.fname = CFG6.outRoot ++ [F6.fname]) :=
  ⟨by decide, rfl, rfl, rfl, rfl,
    claim_C6 CFG6 CUR6 ST6 F6 [str "1"] UPD6 (by decide) rfl rfl rfl rfl
      (by intro i hi hv
          match i, hv with
          | 0, _ => rfl
          | n + 1, hv => exact absurd hv (by simp))⟩

/-- C7: the patcher fails exactly when its input is not well-formed XML (no
parse to a well-formed document), and a parse failure on one recognised file
only logs the file's path and moves on — nothing is written or counted for it
and both maps are untouched. -/
theorem claim_C7 (s gid fdir : Str) (cfg : Cfg) (cur : Path) (st : St) (f : FileEntry)
    (e : Str)
    (hrec : recognizedExt (splitext f.fname).2 = true) (hread : f.readFails = false)
    (hfail : update_workout_xml f.content (aget st.idMap cur [])
      (originLabel cur (splitext f.fname).1) = Except.error e) :
    ((∃ out, update_workout_xml s gid fdir = Except.ok out) ↔
      ∃ t, parseDoc s = some t ∧ wfElem t = true) ∧
    processFile cfg cur st f
      = Except.ok { st with errLog := (cur ++ [f.fname]) :: st.errLog } := by
  constructor
  · constructor
    · rintro ⟨out, hout⟩
      rw [update_workout_xml] at hout
      match hp : parseDoc s with
      | none =>
        rw [hp] at hout
        exact absurd hout (by simp)
      | some t => exact ⟨t, rfl, (parseDoc_wf hp).1⟩
    · rintro ⟨t, hp, _⟩
      rw [update_workout_xml, hp]
      exact ⟨_, rfl⟩
  · rw [processFile]
    simp only [hrec, hread, if_true, Bool.false_eq_true, if_false]
    rw [hfail]

/-- Witness for C7: the non-XML file `F7` is logged and skipped. -/
theorem claim_C7_witness :
    recognizedExt (splitext F7.fname).2 = true ∧ F7.readFails = false ∧
    update_workout_xml F7.content (aget ST7.idMap [str "r7"] [])
      (originLabel [str "r7"] (splitext F7.fname).1)
      = Except.error (str "XML parse error") ∧
    (((∃ out, update_workout_xml (str "<a />") (str "g") (str "d") = Except.ok out) ↔
        ∃ t, parseDoc (str "<a />") = some t ∧ wfElem t = true) ∧
      processFile CFG7 [str "r7"] ST7 F7
        = Except.ok { ST7 with errLog := ([str "r7"] ++ [F7.fname]) :: ST7.errLog }) :=
  ⟨by decide, rfl, rfl,
    claim_C7 (str "<a />") (str "g") (str "d") CFG7 [str "r7"] ST7 F7
      (str "XML parse error") (by decide) rfl rfl⟩

/-- C8 (amended): one run over a root holding exactly `a.zwo` with
`<name>Ride</name>` and no description writes one output file, under the
output root, whose name text is `Ride []` — the root's identifier is the empty
string, so the bracketed tag is empty, with no space between the brackets —
and whose new description text is `File:p8/w8/a:  `. -/
theorem claim_C8 :
    (mainModel (some ([str "p8"], T8))).exitCode = 0 ∧
    Option.map (fun st => st.written.map (fun kv => (kv.1,
        textOf (findChild (str "name") ((parseDoc kv.2).getD (newElem [])).children),
        textOf (findChild (str "description")
          ((parseDoc kv.2).getD (newElem [])).children))))
      (mainModel (some ([str "p8"], T8))).finalSt
    = some [([str "p8", str "w8_tagged", str "a.zwo"],
        str "Ride []", str "File:p8/w8/a:  ")] :=
  ⟨rfl, rfl⟩

/-- C8 counterexample: the run writes name text `Ride []`, not the spec's
`Ride [ ]`. -/
theorem claim_C8_cex :
    Option.map (fun st => st.written.map (fun kv =>
        textOf (findChild (str "name") ((parseDoc kv.2).getD (newElem [])).children)))
      (mainModel (some ([str "p8"], T8))).finalSt = some [str "Ride []"] ∧
    (str "Ride []" : Str) ≠ str "Ride [ ]" :=
  ⟨rfl, by decide⟩

/-- C9: the spec says a cancelled selection exits non-zero with nothing
created, and every other case exits 0.  The first half holds, but the run over
`T9` (a selection was made; its only file is unrecognised) also exits 1,
refuting the second half. -/
theorem claim_C9 :
    mainModel none = { exitCode := 1, summary := none, finalSt := none } ∧
    (mainModel (some ([str "p9"], T9))).exitCode = 1 :=
  ⟨rfl, rfl⟩

/-- C10: for every parseable input the patcher's output text starts with the
document's root element — no XML declaration and no byte-order mark precede
it, even when the input itself carried a declaration. -/
theorem claim_C10 (s gid fdir : Str) (t : Elem) (h : parseDoc s = some t) :
    ∃ out rest, update_workout_xml s gid fdir = Except.ok out ∧
      out = '<' :: t.tag ++ rest ∧
      leadsWith (str "<?xml") out = false ∧
      leadsWith ['\uFEFF'] out = false := by
  obtain ⟨hwf, htl⟩ := parseDoc_wf h
  obtain ⟨p1, _, _, p4⟩ := patchTree_root t gid fdir
  have hwf2 : wfElem (patchTree t gid fdir) = true := patchTree_wf gid fdir hwf
  have hout : update_workout_xml s gid fdir
      = Except.ok (tostring (patchTree t gid fdir)) := by
    rw [update_workout_xml, h]
  have hts : tostring (patchTree t gid fdir) = serElem (patchTree t gid fdir) := by
    rw [tostring, p4.trans htl]
    simp [serOptText]
  obtain ⟨rest, hrest⟩ := serElem_head_tag (patchTree t gid fdir)
  obtain ⟨hc, Z, hZ, hns⟩ := serElem_shape hwf2
  refine ⟨tostring (patchTree t gid fdir), rest, hout, ?_, ?_, ?_⟩
  · rw [hts, hrest, p1]
  · rw [hts, hZ]
    have hq : decide ('?' = hc) = false :=
      decide_eq_false (fun he => nameStart_ne_question hns he.symm)
    show (decide ('<' = '<') && (decide ('?' = hc)
      && leadsWith ('x' :: 'm' :: 'l' :: []) Z)) = false
    rw [hq]
    simp
  · rw [hts, hZ]
    show (decide ('\uFEFF' = '<') && leadsWith [] (hc :: Z)) = false
    rw [show decide ('\uFEFF' = '<') = false from by decide]
    simp

/-- Witness for C10 at `S10`, whose text carries an XML declaration. -/
theorem claim_C10_witness :
    leadsWith (str "<?xml") S10 = true ∧
    parseDoc S10 = some E10 ∧
    (∃ out rest, update_workout_xml S10 (str "g") (str "d") = Except.ok out ∧
      out = '<' :: E10.tag ++ rest ∧
      leadsWith (str "<?xml") out = false ∧
      leadsWith ['\uFEFF'] out = false) :=
  ⟨rfl, rfl, claim_C10 S10 (str "g") (str "d") E10 rfl⟩

end Tagwork
